import Mathlib

/-!
Verification of the resilient batched classification subsystem of the
qualitative-coding pipeline (Modules 1, 2 and 4 of the repository).

Python values flowing through the code (parsed JSON, oracle replies) are
modelled by the inductive type `PyVal`; Python `dict`s are association
lists with distinct keys (Python dicts cannot hold a key twice).  Python
`str.strip` is modelled over the ASCII whitespace characters, the only
whitespace the pipeline's data contains.  Machine floats never occur in
the classification data and are omitted from the model.
-/

/-- The whitespace set used by `str.strip` / regex `\s` (ASCII part). -/
def isPySpace (c : Char) : Bool :=
  c = ' ' || c = '\t' || c = '\n' || c = '\r' || c = '\x0b' || c = '\x0c'

/-- Remove leading and trailing whitespace from a character list
(`str.strip()`). -/
def stripChars (cs : List Char) : List Char :=
  ((cs.dropWhile isPySpace).reverse.dropWhile isPySpace).reverse

/-- `str.strip()` on a `String`. -/
def pstrip (s : String) : String :=
  String.mk (stripChars s.data)

/-- Model of the Python values the pipeline manipulates. -/
inductive PyVal where
  | none : PyVal
  | bool : Bool → PyVal
  | int : Int → PyVal
  | str : String → PyVal
  | list : List PyVal → PyVal
  | dict : List (String × PyVal) → PyVal

/-- Python `repr`, used by `str()` on containers.  (String escaping inside
`repr` is not modelled; no claim exercises it.) -/
def pyRepr (v : PyVal) : String :=
  match v with
  | .none => "None"
  | .bool b => if b then "True" else "False"
  | .int n => toString n
  | .str s => "'" ++ s ++ "'"
  | .list xs =>
      "[" ++ String.intercalate ", " (xs.attach.map (fun x => pyRepr x.1)) ++ "]"
  | .dict m =>
      "\x7b" ++
        String.intercalate ", "
          (m.attach.map (fun p => "'" ++ p.1.1 ++ "': " ++ pyRepr p.1.2)) ++ "\x7d"
termination_by sizeOf v
decreasing_by
  all_goals simp_wf
  · have h := List.sizeOf_lt_of_mem x.2
    omega
  · obtain ⟨⟨k, w⟩, hp⟩ := p
    have h := List.sizeOf_lt_of_mem hp
    simp only [Prod.mk.sizeOf_spec] at h
    simp only []
    omega

/-- Python `str(x)`. -/
def pyStr (v : PyVal) : String :=
  match v with
  | .str s => s
  | v => pyRepr v

/-- Python truthiness `bool(x)`. -/
def pyTruthy (v : PyVal) : Bool :=
  match v with
  | .none => false
  | .bool b => b
  | .int n => n != 0
  | .str s => s != ""
  | .list xs => !xs.isEmpty
  | .dict m => !m.isEmpty

/-- Value of a nonempty all-digit character list. -/
def digitsVal (cs : List Char) : Option Nat :=
  if cs ≠ [] && cs.all Char.isDigit then
    Option.some (cs.foldl (fun a c => a * 10 + (c.toNat - 48)) 0)
  else
    Option.none

/-- Python `int(str)`: surrounding whitespace allowed, optional sign,
then a nonempty run of (ASCII) digits. -/
def intOfChars (cs : List Char) : Option Int :=
  match stripChars cs with
  | '+' :: rest => (digitsVal rest).map Int.ofNat
  | '-' :: rest => (digitsVal rest).map (fun n => -(n : Int))
  | rest => (digitsVal rest).map Int.ofNat

/-- Python `int(x)` on the values that occur as `"id"` fields: ints are
kept, bools coerce (`int(True) = 1`), numeric strings are parsed, and
everything else raises — modelled as `Option.none` (the caller catches the
exception and skips the entry). -/
def pyToInt (v : PyVal) : Option Int :=
  match v with
  | .int n => Option.some n
  | .bool b => Option.some (if b then 1 else 0)
  | .str s => intOfChars s.data
  | _ => Option.none

/-- A Python dict, keys distinct. -/
abbrev PyDict := List (String × PyVal)

/-- `d.get(k)` (returns `None` when absent, modelled by the default). -/
def pyGet (d : PyDict) (k : String) (dflt : PyVal) : PyVal :=
  match d.lookup k with
  | Option.some v => v
  | Option.none => dflt

/-- One verdict entry produced by the filtering normalizer:
`{"id": …, "retain": …, "exclude_reason": …}`. -/
structure FItem where
  id : Nat
  retain : Bool
  exclude_reason : String
deriving DecidableEq, Repr

/-- The manual-review default reason used when the model did not return an
entry for an id (`Module2_filtering.py`, line 91). -/
def manualReviewReason : String := "模型未返回该条结果，需人工检查"

/-- The default verdict filled in for a missing id. -/
def fillDefault (bid : Nat) : FItem :=
  { id := bid, retain := false, exclude_reason := manualReviewReason }

/-- `int(item.get("id"))` wrapped in the `try`: `Option.none` when the
entry is not a dict (`AttributeError`) or its id does not convert
(`TypeError`/`ValueError`), which makes the loop `continue`. -/
def entryId (item : PyVal) : Option Int :=
  match item with
  | .dict d => pyToInt (pyGet d "id" .none)
  | _ => Option.none

/-- The verdict built from an accepted entry (lines 83–87):
`retain = bool(item.get("retain"))`,
`reason = str(item.get("exclude_reason", "")).strip()`, forced to `""`
whenever `retain` is truthy.  (The non-dict branch is unreachable:
`entryId` only succeeds on dicts.) -/
def acceptItem (bid : Nat) (item : PyVal) : FItem :=
  match item with
  | .dict d =>
    let retain := pyTruthy (pyGet d "retain" .none)
    let reason := pstrip (pyStr (pyGet d "exclude_reason" (.str "")))
    { id := bid, retain := retain, exclude_reason := if retain then "" else reason }
  | _ => fillDefault bid

/-- One step of the loop `for item in data["filtering"]` in
`_normalize_filtering_result`: state is `(seen, out)`.  A non-dict entry
or an unconvertible id raises inside the `try` and is skipped
(`continue`); out-of-range and already-seen ids are skipped; otherwise
the entry is accepted. -/
def normStep (n : Nat) (acc : List Nat × List FItem) (item : PyVal) :
    List Nat × List FItem :=
  match entryId item with
  | Option.some bid =>
    if bid < 1 then acc
    else if bid > (n : Int) then acc
    else if bid.toNat ∈ acc.1 then acc
    else (acc.1 ++ [bid.toNat], acc.2 ++ [acceptItem bid.toNat item])
  | Option.none => acc

/-- Comparison used by `out.sort(key=lambda x: x["id"])`. -/
def fidLe (a b : FItem) : Prop := a.id ≤ b.id

instance : DecidableRel fidLe := fun a b => Nat.decLe a.id b.id

instance : IsTotal FItem fidLe := ⟨fun a b => Nat.le_total a.id b.id⟩

instance : IsTrans FItem fidLe := ⟨fun _ _ _ => Nat.le_trans⟩

/-- `_normalize_filtering_result(data, batch_size)` from
`Module2_filtering.py` (lines 68–94): unusable payloads give `[]`;
otherwise accepted entries are collected first-seen-first, every id of
`1..batch_size` with no accepted entry is filled with the manual-review
default, and the result is sorted by id (Python's sort is stable; so is
`List.insertionSort`, and since ids in the filled list are distinct any
stable sort agrees). -/
def normalize_filtering_result (data : PyDict) (batch_size : Nat) : List FItem :=
  match data.lookup "filtering" with
  | Option.some (.list items) =>
    let so := items.foldl (normStep batch_size) ([], [])
    let filled :=
      so.2 ++ ((List.range' 1 batch_size).filter (fun bid => bid ∉ so.1)).map fillDefault
    List.insertionSort fidLe filled
  | _ => []

example :
    normalize_filtering_result
      [("filtering", .list [.dict [("id", .int 2), ("retain", .bool true)]])] 2 =
      [{ id := 1, retain := false, exclude_reason := manualReviewReason },
       { id := 2, retain := true, exclude_reason := "" }] := by decide

/-- Python dict assignment `m[k] = v`: overwrite in place when the key is
present (keys are unique in a Python dict, so replacing the first
occurrence is the same as overwriting), append otherwise. -/
def dictInsert {κ α : Type} [DecidableEq κ] (m : List (κ × α)) (k : κ) (v : α) :
    List (κ × α) :=
  match m with
  | [] => [(k, v)]
  | p :: rest => if p.1 == k then (k, v) :: rest else p :: dictInsert rest k v

/-- The two accumulating maps of `filter_unique_codes_with_batching`:
`id2retain` and `id2reason`, keyed by global code id. -/
structure FState where
  id2retain : List (Nat × Bool)
  id2reason : List (Nat × String)

/-- The empty initial state (`id2retain = {}`, `id2reason = {}`). -/
def initState : FState := { id2retain := [], id2reason := [] }

/-- Recording one normalized verdict at global id `gid`
(`Module2_filtering.py`, lines 136–140): `id2retain[gid] = bool(item["retain"])`
and `id2reason[gid] = str(item["exclude_reason"]).strip()`. -/
def recordVerdict (st : FState) (gid : Nat) (it : FItem) : FState :=
  { id2retain := dictInsert st.id2retain gid it.retain,
    id2reason := dictInsert st.id2reason gid (pstrip it.exclude_reason) }

/-- The reason recorded by the single-item failure branch
(`Module2_filtering.py`, line 150); the argument stands for
`repr(last_err)`. -/
def singleFailReason (errS : String) : String :=
  "API失败/解析失败（单条）：" ++ errS

/-- The single-item failure branch (`Module2_filtering.py`, lines 147–151):
`id2retain[gid] = False`, `id2reason[gid] = singleFailReason` (no strip). -/
def recordSingleFail (st : FState) (gid : Nat) (errS : String) : FState :=
  { id2retain := dictInsert st.id2retain gid false,
    id2reason := dictInsert st.id2reason gid (singleFailReason errS) }

/-- Recording a whole normalized verdict list for the sub-batch starting
at `start_idx = s` (the loop at lines 136–140; `global_ids[bid - 1]`
equals `s + bid`). -/
def recordFold (st : FState) (s : Nat) (l : List FItem) : FState :=
  l.foldl (fun acc it => recordVerdict acc (s + it.id) it) st

/-- A behaviour of `_call_filter_batch`: for a sub-batch `[s, e)` and a
1-based attempt number it either returns a parsed reply (`Option.some`) or
fails (`Option.none`, covering network/HTTP errors, timeouts and malformed
envelopes, which all raise inside the `try`).  Because each range of the
bisection tree is distinct, a function of `(s, e, attempt)` covers every
possible behaviour of the real call.  `safe_parse_json(raw) or {}` can in
principle also yield a non-dict JSON value, which would raise `TypeError`
inside `_normalize_filtering_result` and be caught by the same `try`; that
behaviour is indistinguishable from `Option.none` here. -/
abbrev Oracle := Nat → Nat → Nat → Option PyDict

/-- The retry loop of `process_range` (lines 123–145), attempt numbers
counting up from `a` with `fuel` attempts left: the first attempt whose
call returns data that normalizes to a nonempty verdict list wins; an
exception or an empty normalization moves to the next attempt. -/
def firstSuccessAux (oracle : Oracle) (s e n : Nat) : Nat → Nat → Option (List FItem)
  | _, 0 => Option.none
  | a, fuel+1 =>
    match oracle s e a with
    | Option.some data =>
      let filtering := normalize_filtering_result data n
      if filtering.isEmpty then firstSuccessAux oracle s e n (a + 1) fuel
      else Option.some filtering
    | Option.none => firstSuccessAux oracle s e n (a + 1) fuel

/-- The whole retry loop: attempts `1..max_retries_each_batch`. -/
def firstSuccess (oracle : Oracle) (s e n maxR : Nat) : Option (List FItem) :=
  firstSuccessAux oracle s e n 1 maxR

/-- Length of the slice `unique_codes[start:end]`. -/
def sliceLen (codes : List String) (s e : Nat) : Nat :=
  ((codes.drop s).take (e - s)).length

theorem sliceLen_le (codes : List String) (s e : Nat) : sliceLen codes s e ≤ e - s := by
  simp [sliceLen]

theorem sliceLen_eq (codes : List String) (s e : Nat) (he : e ≤ codes.length) :
    sliceLen codes s e = e - s := by
  simp [sliceLen]
  omega

/-- `process_range(start_idx, end_idx)` from `Module2_filtering.py`
(lines 113–155).  On a successful attempt each normalized verdict with
local id `bid` is recorded at global id `global_ids[bid-1] = start + bid`;
when every attempt fails, a batch of one gets the guaranteed default and a
larger batch is bisected at `start + n // 2`. -/
def process_range (oracle : Oracle) (codes : List String) (maxR : Nat)
    (errS : String) (s e : Nat) (st : FState) : FState :=
  if hn : sliceLen codes s e = 0 then st
  else
    match firstSuccess oracle s e (sliceLen codes s e) maxR with
    | Option.some filtering => recordFold st s filtering
    | Option.none =>
      if h1 : sliceLen codes s e = 1 then recordSingleFail st (s + 1) errS
      else
        process_range oracle codes maxR errS (s + sliceLen codes s e / 2) e
          (process_range oracle codes maxR errS s (s + sliceLen codes s e / 2) st)
termination_by e - s
decreasing_by
  all_goals
    have hle := sliceLen_le codes s e
    simp_wf
    omega

/-- The starts of the top-level batches `range(0, total, batch_size)`
(requires `batch_size ≥ 1`, as in Python, where a zero step raises). -/
def batchStarts (total B : Nat) : List Nat :=
  (List.range ((total + B - 1) / B)).map (fun k => k * B)

/-- `filter_unique_codes_with_batching` (lines 97–163): process each
top-level batch `[s, min(s + B, total))` in order, accumulating the
`id2retain` / `id2reason` maps (the sleeps have no effect on the result). -/
def filter_unique_codes_with_batching (oracle : Oracle) (codes : List String)
    (B maxR : Nat) (errS : String) : FState :=
  (batchStarts codes.length B).foldl
    (fun st s => process_range oracle codes maxR errS s (min (s + B) codes.length) st)
    initState

/-- The mapping `id2code = {i + 1: code for i, code in enumerate(unique_codes)}`
built at line 109 and returned unchanged. -/
def id2code (codes : List String) : List (Nat × String) :=
  codes.enum.map (fun p => (p.1 + 1, p.2))

/-- The reverse mapping `code2id = {v: k for k, v in id2code.items()}` built
in `build_filter_outputs_from_open_df` (line 188); on duplicate texts the
later id would win, as in Python. -/
def code2id_of (m : List (Nat × String)) : List (String × Nat) :=
  m.foldl (fun acc p => dictInsert acc p.2 p.1) []

/-- Number of oracle calls the retry loop makes (each loop iteration makes
exactly one call; a successful attempt stops the loop). -/
def attemptsUsedAux (oracle : Oracle) (s e n : Nat) : Nat → Nat → Nat
  | _, 0 => 0
  | a, fuel+1 =>
    match oracle s e a with
    | Option.some data =>
      if (normalize_filtering_result data n).isEmpty then
        1 + attemptsUsedAux oracle s e n (a + 1) fuel
      else 1
    | Option.none => 1 + attemptsUsedAux oracle s e n (a + 1) fuel

/-- Oracle calls made by one full retry loop. -/
def attemptsUsed (oracle : Oracle) (s e n maxR : Nat) : Nat :=
  attemptsUsedAux oracle s e n 1 maxR

/-- Total number of oracle calls made by `process_range` on `[s, e)`,
including all bisection descendants. -/
def oracle_calls (oracle : Oracle) (codes : List String) (maxR s e : Nat) : Nat :=
  if hn : sliceLen codes s e = 0 then 0
  else
    attemptsUsed oracle s e (sliceLen codes s e) maxR +
      match firstSuccess oracle s e (sliceLen codes s e) maxR with
      | Option.some _ => 0
      | Option.none =>
        if h1 : sliceLen codes s e = 1 then 0
        else
          oracle_calls oracle codes maxR s (s + sliceLen codes s e / 2) +
            oracle_calls oracle codes maxR (s + sliceLen codes s e / 2) e
termination_by e - s
decreasing_by
  all_goals
    have hle := sliceLen_le codes s e
    simp_wf
    omega

/-- Number of nodes of the bisection tree rooted at `[s, e)` (the
invocations of `process_range` that run the retry loop, i.e. with a
nonempty slice). -/
def bisect_nodes (oracle : Oracle) (codes : List String) (maxR s e : Nat) : Nat :=
  if hn : sliceLen codes s e = 0 then 0
  else
    1 +
      match firstSuccess oracle s e (sliceLen codes s e) maxR with
      | Option.some _ => 0
      | Option.none =>
        if h1 : sliceLen codes s e = 1 then 0
        else
          bisect_nodes oracle codes maxR s (s + sliceLen codes s e / 2) +
            bisect_nodes oracle codes maxR (s + sliceLen codes s e / 2) e
termination_by e - s
decreasing_by
  all_goals
    have hle := sliceLen_le codes s e
    simp_wf
    omega

/-! ### Association-list lemmas for the Python-dict model -/

section DictLemmas

variable {κ α : Type} [DecidableEq κ]

theorem dictInsert_lookup_self (m : List (κ × α)) (k : κ) (v : α) :
    (dictInsert m k v).lookup k = Option.some v := by
  induction m with
  | nil => simp [dictInsert, List.lookup_cons]
  | cons p rest ih =>
    by_cases hpk : p.1 = k
    · simp [dictInsert, hpk, List.lookup_cons]
    · have hkp : (k == p.1) = false := by
        simp only [beq_eq_false_iff_ne]
        exact fun hh => hpk hh.symm
      obtain ⟨a, b⟩ := p
      simp only [dictInsert, beq_iff_eq, hpk, if_false, List.lookup_cons]
      simp only at hkp
      simp [hkp, ih]

theorem dictInsert_lookup_ne (m : List (κ × α)) (k g : κ) (v : α) (hg : g ≠ k) :
    (dictInsert m k v).lookup g = m.lookup g := by
  have hgk : (g == k) = false := by
    simp only [beq_eq_false_iff_ne]
    exact hg
  induction m with
  | nil => simp [dictInsert, List.lookup_cons, hgk]
  | cons p rest ih =>
    obtain ⟨a, b⟩ := p
    by_cases hpk : a = k
    · subst hpk
      have hga : (g == a) = false := by
        simp only [beq_eq_false_iff_ne]
        exact hg
      simp [dictInsert, List.lookup_cons, hga]
    · rw [show dictInsert ((a, b) :: rest) k v = (a, b) :: dictInsert rest k v from by
        simp [dictInsert, hpk]]
      simp [List.lookup_cons, ih]

theorem dictInsert_mem_keys (m : List (κ × α)) (k g : κ) (v : α) :
    g ∈ (dictInsert m k v).map Prod.fst ↔ g = k ∨ g ∈ m.map Prod.fst := by
  induction m with
  | nil => simp [dictInsert]
  | cons p rest ih =>
    obtain ⟨a, b⟩ := p
    by_cases hpk : a = k
    · subst hpk
      rw [show dictInsert ((a, b) :: rest) a v = (a, v) :: rest from by simp [dictInsert]]
      simp only [List.map_cons, List.mem_cons]
      tauto
    · rw [show dictInsert ((a, b) :: rest) k v = (a, b) :: dictInsert rest k v from by
        simp [dictInsert, hpk]]
      simp only [List.map_cons, List.mem_cons, ih]
      tauto

end DictLemmas

/-! ### Lemmas about recording verdicts -/

theorem recordFold_cons (st : FState) (s : Nat) (it : FItem) (l : List FItem) :
    recordFold st s (it :: l) = recordFold (recordVerdict st (s + it.id) it) s l := rfl

theorem recordFold_keys_retain (s : Nat) :
    ∀ (l : List FItem) (st : FState) (g : Nat),
      (g ∈ (recordFold st s l).id2retain.map Prod.fst ↔
        g ∈ st.id2retain.map Prod.fst ∨ ∃ it ∈ l, g = s + it.id) := by
  intro l
  induction l with
  | nil => simp [recordFold]
  | cons it rest ih =>
    intro st g
    rw [recordFold_cons, ih]
    simp only [recordVerdict, dictInsert_mem_keys, List.exists_mem_cons_iff]
    tauto

theorem recordFold_keys_reason (s : Nat) :
    ∀ (l : List FItem) (st : FState) (g : Nat),
      (g ∈ (recordFold st s l).id2reason.map Prod.fst ↔
        g ∈ st.id2reason.map Prod.fst ∨ ∃ it ∈ l, g = s + it.id) := by
  intro l
  induction l with
  | nil => simp [recordFold]
  | cons it rest ih =>
    intro st g
    rw [recordFold_cons, ih]
    simp only [recordVerdict, dictInsert_mem_keys, List.exists_mem_cons_iff]
    tauto

theorem recordFold_lookup_retain (s : Nat) :
    ∀ (l : List FItem) (st : FState) (g : Nat), (l.map FItem.id).Nodup →
      (recordFold st s l).id2retain.lookup g =
        (match l.find? (fun it => s + it.id == g) with
         | Option.some it => Option.some it.retain
         | Option.none => st.id2retain.lookup g) := by
  intro l
  induction l with
  | nil =>
    intro st g _
    rfl
  | cons it rest ih =>
    intro st g hnd
    simp only [List.map_cons, List.nodup_cons] at hnd
    obtain ⟨hnotin, hndr⟩ := hnd
    rw [recordFold_cons, ih _ _ hndr]
    by_cases hg : s + it.id = g
    · rw [List.find?_cons_of_pos _ (by simp [hg])]
      have hfr : rest.find? (fun it' => s + it'.id == g) = Option.none := by
        rw [List.find?_eq_none]
        intro x hx
        simp only [beq_iff_eq]
        intro hcon
        apply hnotin
        have hxid : x.id = it.id := by omega
        rw [← hxid]
        exact List.mem_map_of_mem _ hx
      rw [hfr]
      simp only [recordVerdict]
      rw [← hg]
      exact dictInsert_lookup_self _ _ _
    · rw [List.find?_cons_of_neg _ (by simp [hg])]
      cases hfr : rest.find? (fun it' => s + it'.id == g) with
      | some it' => rfl
      | none =>
        simp only [recordVerdict]
        exact dictInsert_lookup_ne _ _ _ _ (fun hh => hg hh.symm)

theorem recordFold_lookup_reason (s : Nat) :
    ∀ (l : List FItem) (st : FState) (g : Nat), (l.map FItem.id).Nodup →
      (recordFold st s l).id2reason.lookup g =
        (match l.find? (fun it => s + it.id == g) with
         | Option.some it => Option.some (pstrip it.exclude_reason)
         | Option.none => st.id2reason.lookup g) := by
  intro l
  induction l with
  | nil =>
    intro st g _
    rfl
  | cons it rest ih =>
    intro st g hnd
    simp only [List.map_cons, List.nodup_cons] at hnd
    obtain ⟨hnotin, hndr⟩ := hnd
    rw [recordFold_cons, ih _ _ hndr]
    by_cases hg : s + it.id = g
    · rw [List.find?_cons_of_pos _ (by simp [hg])]
      have hfr : rest.find? (fun it' => s + it'.id == g) = Option.none := by
        rw [List.find?_eq_none]
        intro x hx
        simp only [beq_iff_eq]
        intro hcon
        apply hnotin
        have hxid : x.id = it.id := by omega
        rw [← hxid]
        exact List.mem_map_of_mem _ hx
      rw [hfr]
      simp only [recordVerdict]
      rw [← hg]
      exact dictInsert_lookup_self _ _ _
    · rw [List.find?_cons_of_neg _ (by simp [hg])]
      cases hfr : rest.find? (fun it' => s + it'.id == g) with
      | some it' => rfl
      | none =>
        simp only [recordVerdict]
        exact dictInsert_lookup_ne _ _ _ _ (fun hh => hg hh.symm)

/-! ### Lemmas about the normalizer fold -/

theorem acceptItem_id (bid : Nat) (item : PyVal) : (acceptItem bid item).id = bid := by
  cases item <;> rfl

theorem acceptItem_retain_reason (bid : Nat) (item : PyVal)
    (h : (acceptItem bid item).retain = true) : (acceptItem bid item).exclude_reason = "" := by
  cases item <;> simp_all [acceptItem, fillDefault]

theorem fillDefault_id (bid : Nat) : (fillDefault bid).id = bid := rfl

/-- Structure of one normalizer step: it either leaves the state unchanged
or accepts the entry (id parses, in range, unseen). -/
theorem normStep_cases (n : Nat) (acc : List Nat × List FItem) (item : PyVal) :
    normStep n acc item = acc ∨
      ∃ bid : Int, entryId item = Option.some bid ∧ 1 ≤ bid ∧ bid ≤ (n : Int) ∧
        bid.toNat ∉ acc.1 ∧
        normStep n acc item = (acc.1 ++ [bid.toNat], acc.2 ++ [acceptItem bid.toNat item]) := by
  cases h : entryId item with
  | none =>
    left
    simp [normStep, h]
  | some bid =>
    by_cases h1 : bid < 1
    · left
      simp [normStep, h, h1]
    · by_cases h2 : bid > (n : Int)
      · left
        simp [normStep, h, h1, h2]
      · by_cases h3 : bid.toNat ∈ acc.1
        · left
          simp [normStep, h, h1, h2, h3]
        · right
          exact ⟨bid, rfl, by omega, by omega, h3, by simp [normStep, h, h1, h2, h3]⟩

theorem normFold_mem_fst (n : Nat) :
    ∀ (items : List PyVal) (acc : List Nat × List FItem) (x : Nat), x ∈ acc.1 →
      x ∈ (items.foldl (normStep n) acc).1 := by
  intro items
  induction items with
  | nil => intro acc x hx; exact hx
  | cons item rest ih =>
    intro acc x hx
    rw [List.foldl_cons]
    apply ih
    rcases normStep_cases n acc item with hc | ⟨bid, _, _, _, _, hc⟩ <;>
      simp [hc, hx]

theorem normFold_mem_snd (n : Nat) :
    ∀ (items : List PyVal) (acc : List Nat × List FItem) (x : FItem), x ∈ acc.2 →
      x ∈ (items.foldl (normStep n) acc).2 := by
  intro items
  induction items with
  | nil => intro acc x hx; exact hx
  | cons item rest ih =>
    intro acc x hx
    rw [List.foldl_cons]
    apply ih
    rcases normStep_cases n acc item with hc | ⟨bid, _, _, _, _, hc⟩ <;>
      simp [hc, hx]

theorem normFold_fst_eq_map_id (n : Nat) :
    ∀ (items : List PyVal) (acc : List Nat × List FItem),
      acc.1 = acc.2.map FItem.id →
      (items.foldl (normStep n) acc).1 = (items.foldl (normStep n) acc).2.map FItem.id := by
  intro items
  induction items with
  | nil => intro acc h; exact h
  | cons item rest ih =>
    intro acc h
    rw [List.foldl_cons]
    apply ih
    rcases normStep_cases n acc item with hc | ⟨bid, _, _, _, _, hc⟩
    · rw [hc]; exact h
    · rw [hc]
      simp [h, acceptItem_id]

theorem normFold_fst_range (n : Nat) :
    ∀ (items : List PyVal) (acc : List Nat × List FItem) (j : Nat),
      j ∈ (items.foldl (normStep n) acc).1 → j ∈ acc.1 ∨ (1 ≤ j ∧ j ≤ n) := by
  intro items
  induction items with
  | nil => intro acc j hj; exact Or.inl hj
  | cons item rest ih =>
    intro acc j hj
    rw [List.foldl_cons] at hj
    rcases ih _ j hj with hj' | hr
    · rcases normStep_cases n acc item with hc | ⟨bid, _, hb1, hb2, _, hc⟩
      · rw [hc] at hj'
        exact Or.inl hj'
      · rw [hc] at hj'
        simp only [List.mem_append, List.mem_singleton] at hj'
        rcases hj' with hj' | hj'
        · exact Or.inl hj'
        · right
          omega
    · exact Or.inr hr

theorem normFold_fst_nodup (n : Nat) :
    ∀ (items : List PyVal) (acc : List Nat × List FItem), acc.1.Nodup →
      (items.foldl (normStep n) acc).1.Nodup := by
  intro items
  induction items with
  | nil => intro acc h; exact h
  | cons item rest ih =>
    intro acc h
    rw [List.foldl_cons]
    apply ih
    rcases normStep_cases n acc item with hc | ⟨bid, _, _, _, h3, hc⟩
    · rw [hc]; exact h
    · rw [hc]
      rw [List.nodup_append]
      refine ⟨h, List.nodup_singleton _, ?_⟩
      intro a ha hcon
      rw [List.mem_singleton] at hcon
      rw [hcon] at ha
      exact h3 ha

/-- The first-seen characterization: for a valid unseen id `i`, the fold
accepts exactly the first entry whose id parses to `i`; if no entry
parses to `i`, the id stays unseen. -/
theorem normFold_find (n : Nat) :
    ∀ (items : List PyVal) (acc : List Nat × List FItem) (i : Nat),
      1 ≤ i → i ≤ n → i ∉ acc.1 →
      (match items.find? (fun it => entryId it == Option.some (i : Int)) with
       | Option.some it =>
           acceptItem i it ∈ (items.foldl (normStep n) acc).2 ∧
             i ∈ (items.foldl (normStep n) acc).1
       | Option.none => i ∉ (items.foldl (normStep n) acc).1) := by
  intro items
  induction items with
  | nil =>
    intro acc i h1 h2 hi
    exact hi
  | cons item rest ih =>
    intro acc i h1 h2 hi
    by_cases hm : entryId item = Option.some (i : Int)
    · rw [List.find?_cons_of_pos _ (by simp [hm])]
      have hstep : normStep n acc item = (acc.1 ++ [i], acc.2 ++ [acceptItem i item]) := by
        have htn : (i : Int).toNat = i := Int.toNat_natCast i
        simp only [normStep, hm, htn]
        rw [if_neg (by omega), if_neg (by omega), if_neg hi]
      rw [List.foldl_cons, hstep]
      constructor
      · apply normFold_mem_snd
        simp
      · apply normFold_mem_fst
        simp
    · rw [List.find?_cons_of_neg _ (by simp [hm])]
      rw [List.foldl_cons]
      have hi' : i ∉ (normStep n acc item).1 := by
        rcases normStep_cases n acc item with hc | ⟨bid, hbid, hb1, hb2, hb3, hc⟩
        · rw [hc]
          exact hi
        · rw [hc]
          simp only [List.mem_append, List.mem_singleton]
          rintro (h | h)
          · exact hi h
          · apply hm
            rw [hbid]
            congr 1
            omega
      exact ih _ i h1 h2 hi'

/-! ### The normalizer characterization -/

/-- The verdict the normalizer is expected to produce for local id `i`
(spec 4.5): the first entry of the reply whose id parses to `i` wins
(later duplicates are dropped); if no entry parses to `i`, the
manual-review default fills the gap. -/
def expectedVerdict (data : PyDict) (i : Nat) : FItem :=
  match data.lookup "filtering" with
  | Option.some (.list items) =>
    match items.find? (fun it => entryId it == Option.some (i : Int)) with
    | Option.some it => acceptItem i it
    | Option.none => fillDefault i
  | _ => fillDefault i

theorem normalize_nonempty_branch (data : PyDict) (n : Nat)
    (hne : normalize_filtering_result data n ≠ []) :
    ∃ items, data.lookup "filtering" = Option.some (.list items) := by
  unfold normalize_filtering_result at hne
  cases h : data.lookup "filtering" with
  | none =>
    rw [h] at hne
    exact absurd rfl hne
  | some v =>
    rw [h] at hne
    cases v with
    | list items => exact ⟨items, rfl⟩
    | none => exact absurd rfl hne
    | bool b => exact absurd rfl hne
    | int m => exact absurd rfl hne
    | str s => exact absurd rfl hne
    | dict d => exact absurd rfl hne

theorem normalize_eq_sort (data : PyDict) (n : Nat) (items : List PyVal)
    (h : data.lookup "filtering" = Option.some (.list items)) :
    normalize_filtering_result data n =
      List.insertionSort fidLe ((items.foldl (normStep n) ([], [])).2 ++
        ((List.range' 1 n).filter
          (fun bid => bid ∉ (items.foldl (normStep n) ([], [])).1)).map fillDefault) := by
  unfold normalize_filtering_result
  rw [h]

theorem sort_filled_map_id (n : Nat) (seen : List Nat) (out : List FItem)
    (hmap : seen = out.map FItem.id) (hnd : seen.Nodup)
    (hrange : ∀ j ∈ seen, 1 ≤ j ∧ j ≤ n) :
    (List.insertionSort fidLe
        (out ++ ((List.range' 1 n).filter (fun bid => bid ∉ seen)).map fillDefault)).map
        FItem.id = List.range' 1 n := by
  have hfids : (out ++ ((List.range' 1 n).filter (fun bid => bid ∉ seen)).map
      fillDefault).map FItem.id = seen ++ (List.range' 1 n).filter (fun bid => bid ∉ seen) := by
    rw [List.map_append, ← hmap, List.map_map]
    congr 1
    have : FItem.id ∘ fillDefault = fun x => x := rfl
    rw [this, List.map_id']
  have hndf : ((out ++ ((List.range' 1 n).filter (fun bid => bid ∉ seen)).map
      fillDefault).map FItem.id).Nodup := by
    rw [hfids, List.nodup_append]
    refine ⟨hnd, (List.nodup_range' 1 n).filter _, ?_⟩
    intro a ha hb
    rw [List.mem_filter] at hb
    exact absurd ha (by simpa using hb.2)
  have hmemf : ∀ j, (j ∈ (out ++ ((List.range' 1 n).filter (fun bid => bid ∉ seen)).map
      fillDefault).map FItem.id ↔ j ∈ List.range' 1 n) := by
    intro j
    rw [hfids, List.mem_append, List.mem_filter]
    constructor
    · rintro (hj | ⟨hj, _⟩)
      · have hr := hrange j hj
        rw [List.mem_range'_1]
        omega
      · exact hj
    · intro hj
      by_cases hs : j ∈ seen
      · exact Or.inl hs
      · exact Or.inr ⟨hj, by simpa using hs⟩
  have hperm : ((out ++ ((List.range' 1 n).filter (fun bid => bid ∉ seen)).map
      fillDefault).map FItem.id).Perm (List.range' 1 n) := by
    apply List.perm_of_nodup_nodup_toFinset_eq hndf (List.nodup_range' 1 n)
    apply Finset.ext
    intro j
    simp only [List.mem_toFinset]
    exact hmemf j
  have hs1 : List.Sorted (fun a b : Nat => a ≤ b)
      ((List.insertionSort fidLe (out ++ ((List.range' 1 n).filter
        (fun bid => bid ∉ seen)).map fillDefault)).map FItem.id) :=
    List.pairwise_map.mpr (List.sorted_insertionSort fidLe _)
  have hs2 : List.Sorted (fun a b : Nat => a ≤ b) (List.range' 1 n) :=
    (List.pairwise_lt_range' 1 n).imp (fun h => Nat.le_of_lt h)
  exact List.eq_of_perm_of_sorted
    (((List.perm_insertionSort fidLe _).map FItem.id).trans hperm) hs1 hs2

theorem normalize_map_id (data : PyDict) (n : Nat)
    (hne : normalize_filtering_result data n ≠ []) :
    (normalize_filtering_result data n).map FItem.id = List.range' 1 n := by
  obtain ⟨items, h⟩ := normalize_nonempty_branch data n hne
  rw [normalize_eq_sort data n items h]
  apply sort_filled_map_id n _ _
    (normFold_fst_eq_map_id n items ([], []) rfl)
    (normFold_fst_nodup n items ([], []) List.nodup_nil)
  intro j hj
  rcases normFold_fst_range n items ([], []) j hj with hj' | hj'
  · exact absurd hj' (by simp)
  · exact hj'

theorem normalize_length (data : PyDict) (n : Nat)
    (hne : normalize_filtering_result data n ≠ []) :
    (normalize_filtering_result data n).length = n := by
  have h := congrArg List.length (normalize_map_id data n hne)
  simpa using h

theorem sort_filled_mem (n : Nat) (seen : List Nat) (out : List FItem) (x : FItem) :
    x ∈ List.insertionSort fidLe
        (out ++ ((List.range' 1 n).filter (fun bid => bid ∉ seen)).map fillDefault) ↔
      x ∈ out ∨ ∃ i, i ∈ List.range' 1 n ∧ i ∉ seen ∧ x = fillDefault i := by
  rw [(List.perm_insertionSort fidLe _).mem_iff]
  constructor
  · intro hx
    rcases List.mem_append.mp hx with hx | hx
    · exact Or.inl hx
    · right
      obtain ⟨i, hi, hxi⟩ := List.mem_map.mp hx
      rw [List.mem_filter] at hi
      exact ⟨i, hi.1, by simpa using hi.2, hxi.symm⟩
  · rintro (hx | ⟨i, hi1, hi2, hx⟩)
    · exact List.mem_append.mpr (Or.inl hx)
    · refine List.mem_append.mpr (Or.inr ?_)
      apply List.mem_map.mpr
      exact ⟨i, List.mem_filter.mpr ⟨hi1, by simpa using hi2⟩, hx.symm⟩

theorem expectedVerdict_id (data : PyDict) (i : Nat) : (expectedVerdict data i).id = i := by
  unfold expectedVerdict
  split
  · split
    · exact acceptItem_id i _
    · rfl
  · rfl

theorem list_eq_map_of_ids (n : Nat) (out : List FItem) (f : Nat → FItem)
    (hids : out.map FItem.id = List.range' 1 n)
    (hmem : ∀ i, 1 ≤ i → i ≤ n → f i ∈ out)
    (hfid : ∀ i, (f i).id = i) :
    out = (List.range' 1 n).map f := by
  have hlen : out.length = n := by
    have h := congrArg List.length hids
    simpa using h
  have hout_id : ∀ m, m < out.length →
      out[m]?.map FItem.id = Option.some (1 + m) := by
    intro m hm
    have h2 : (out.map FItem.id)[m]? = Option.some (1 + m) := by
      rw [hids, List.getElem?_range' 1 1 (by omega)]
      simp
    rw [List.getElem?_map] at h2
    exact h2
  apply List.ext_getElem
  · simp [hlen]
  · intro k h1 h2
    have hk : k < n := by omega
    have hf : f (1 + k) ∈ out := hmem (1 + k) (by omega) (by omega)
    obtain ⟨j, hj, hjf⟩ := List.mem_iff_getElem.mp hf
    have hid2 : (out[j]).id = 1 + j := by
      have h3 := hout_id j hj
      rw [List.getElem?_eq_getElem hj] at h3
      simpa using h3
    have hjk : k = j := by
      rw [hjf, hfid] at hid2
      omega
    subst hjk
    have h4 : out[k] = f (1 + k) := hjf
    rw [h4, List.getElem_map]
    congr 1
    rw [List.getElem_range']
    omega

theorem normalize_expected_mem (data : PyDict) (n : Nat)
    (hne : normalize_filtering_result data n ≠ []) :
    ∀ i, 1 ≤ i → i ≤ n → expectedVerdict data i ∈ normalize_filtering_result data n := by
  obtain ⟨items, h⟩ := normalize_nonempty_branch data n hne
  intro i h1 h2
  rw [normalize_eq_sort data n items h, sort_filled_mem]
  have hfind := normFold_find n items ([], []) i h1 h2 (by simp)
  cases hf : items.find? (fun it => entryId it == Option.some (i : Int)) with
  | some it =>
    rw [hf] at hfind
    have he : expectedVerdict data i = acceptItem i it := by
      simp only [expectedVerdict, h, hf]
    rw [he]
    exact Or.inl hfind.1
  | none =>
    rw [hf] at hfind
    have he : expectedVerdict data i = fillDefault i := by
      simp only [expectedVerdict, h, hf]
    rw [he]
    right
    exact ⟨i, List.mem_range'_1.mpr (by omega), hfind, rfl⟩

theorem normalize_eq_map_expected (data : PyDict) (n : Nat)
    (hne : normalize_filtering_result data n ≠ []) :
    normalize_filtering_result data n = (List.range' 1 n).map (expectedVerdict data) := by
  exact list_eq_map_of_ids n _ _ (normalize_map_id data n hne)
    (normalize_expected_mem data n hne) (expectedVerdict_id data)

theorem normFold_snd_shape (n : Nat) :
    ∀ (items : List PyVal) (acc : List Nat × List FItem) (x : FItem),
      x ∈ (items.foldl (normStep n) acc).2 →
      x ∈ acc.2 ∨ ∃ bid item, x = acceptItem bid item := by
  intro items
  induction items with
  | nil => intro acc x hx; exact Or.inl hx
  | cons item rest ih =>
    intro acc x hx
    rw [List.foldl_cons] at hx
    rcases ih _ x hx with hx' | hsh
    · rcases normStep_cases n acc item with hc | ⟨bid, _, _, _, _, hc⟩
      · rw [hc] at hx'
        exact Or.inl hx'
      · rw [hc] at hx'
        rcases List.mem_append.mp hx' with hx' | hx'
        · exact Or.inl hx'
        · right
          exact ⟨bid.toNat, item, (List.mem_singleton.mp hx')⟩
    · exact Or.inr hsh

/-- Every verdict the normalizer outputs satisfies: a retained verdict
carries an empty reason. -/
theorem normalize_retain_imp_empty_reason (data : PyDict) (n : Nat) (x : FItem)
    (hx : x ∈ normalize_filtering_result data n) (hr : x.retain = true) :
    x.exclude_reason = "" := by
  by_cases hne : normalize_filtering_result data n = []
  · rw [hne] at hx
    cases hx
  · obtain ⟨items, h⟩ := normalize_nonempty_branch data n hne
    rw [normalize_eq_sort data n items h, sort_filled_mem] at hx
    rcases hx with hx | ⟨i, _, _, hx⟩
    · rcases normFold_snd_shape n items ([], []) x hx with hx' | ⟨bid, item, hx'⟩
      · simp at hx'
      · rw [hx'] at hr ⊢
        exact acceptItem_retain_reason bid item hr
    · rw [hx] at hr
      simp [fillDefault] at hr

/-! ### Lemmas about the retry loop -/

theorem firstSuccessAux_some (oracle : Oracle) (s e n : Nat) :
    ∀ (fuel a : Nat) (l : List FItem),
      firstSuccessAux oracle s e n a fuel = Option.some l →
      l ≠ [] ∧ ∃ data, l = normalize_filtering_result data n := by
  intro fuel
  induction fuel with
  | zero =>
    intro a l h
    simp [firstSuccessAux] at h
  | succ fuel ih =>
    intro a l h
    cases ho : oracle s e a with
    | some data =>
      simp only [firstSuccessAux, ho] at h
      by_cases hE : (normalize_filtering_result data n).isEmpty
      · rw [if_pos hE] at h
        exact ih (a + 1) l h
      · rw [if_neg hE] at h
        have hl : normalize_filtering_result data n = l := Option.some.inj h
        refine ⟨?_, data, hl.symm⟩
        rw [← hl]
        intro hnil
        rw [hnil] at hE
        exact hE rfl
    | none =>
      simp only [firstSuccessAux, ho] at h
      exact ih (a + 1) l h

theorem firstSuccess_some (oracle : Oracle) (s e n maxR : Nat) (l : List FItem)
    (h : firstSuccess oracle s e n maxR = Option.some l) :
    l ≠ [] ∧ ∃ data, l = normalize_filtering_result data n :=
  firstSuccessAux_some oracle s e n maxR 1 l h

theorem firstSuccessAux_none_of_fail (oracle : Oracle) (s e n : Nat)
    (hfail : ∀ t, oracle s e t = Option.none) :
    ∀ (fuel a : Nat), firstSuccessAux oracle s e n a fuel = Option.none := by
  intro fuel
  induction fuel with
  | zero =>
    intro a
    rfl
  | succ fuel ih =>
    intro a
    simp only [firstSuccessAux, hfail a]
    exact ih (a + 1)

theorem firstSuccess_none_of_fail (oracle : Oracle) (s e n maxR : Nat)
    (hfail : ∀ t, oracle s e t = Option.none) :
    firstSuccess oracle s e n maxR = Option.none :=
  firstSuccessAux_none_of_fail oracle s e n hfail maxR 1

theorem firstSuccess_of_first_attempt (oracle : Oracle) (s e n maxR : Nat) (data : PyDict)
    (hmr : 1 ≤ maxR) (ho : oracle s e 1 = Option.some data)
    (hne : normalize_filtering_result data n ≠ []) :
    firstSuccess oracle s e n maxR = Option.some (normalize_filtering_result data n) := by
  unfold firstSuccess
  cases maxR with
  | zero => omega
  | succ m =>
    simp only [firstSuccessAux, ho]
    rw [if_neg]
    intro hE
    exact hne (List.isEmpty_iff.mp hE)

theorem attemptsUsedAux_le (oracle : Oracle) (s e n : Nat) :
    ∀ (fuel a : Nat), attemptsUsedAux oracle s e n a fuel ≤ fuel := by
  intro fuel
  induction fuel with
  | zero =>
    intro a
    exact Nat.le_refl 0
  | succ fuel ih =>
    intro a
    cases ho : oracle s e a with
    | some data =>
      simp only [attemptsUsedAux, ho]
      by_cases hE : (normalize_filtering_result data n).isEmpty
      · rw [if_pos hE]
        have := ih (a + 1)
        omega
      · rw [if_neg hE]
        omega
    | none =>
      simp only [attemptsUsedAux, ho]
      have := ih (a + 1)
      omega

theorem attemptsUsed_le (oracle : Oracle) (s e n maxR : Nat) :
    attemptsUsed oracle s e n maxR ≤ maxR :=
  attemptsUsedAux_le oracle s e n maxR 1

theorem attemptsUsed_of_first_attempt (oracle : Oracle) (s e n maxR : Nat) (data : PyDict)
    (hmr : 1 ≤ maxR) (ho : oracle s e 1 = Option.some data)
    (hne : normalize_filtering_result data n ≠ []) :
    attemptsUsed oracle s e n maxR = 1 := by
  unfold attemptsUsed
  cases maxR with
  | zero => omega
  | succ m =>
    simp only [attemptsUsedAux, ho]
    rw [if_neg]
    intro hE
    exact hne (List.isEmpty_iff.mp hE)

/-! ### Completeness of `process_range` -/

theorem process_range_keys (oracle : Oracle) (codes : List String) (maxR : Nat)
    (errS : String) :
    ∀ (d s e : Nat) (st : FState), e - s = d → e ≤ codes.length → ∀ g,
      ((g ∈ (process_range oracle codes maxR errS s e st).id2retain.map Prod.fst ↔
          g ∈ st.id2retain.map Prod.fst ∨ (s + 1 ≤ g ∧ g ≤ e)) ∧
        (g ∈ (process_range oracle codes maxR errS s e st).id2reason.map Prod.fst ↔
          g ∈ st.id2reason.map Prod.fst ∨ (s + 1 ≤ g ∧ g ≤ e))) := by
  intro d
  induction d using Nat.strong_induction_on with
  | _ d ih =>
    intro s e st hd he g
    have hn : sliceLen codes s e = e - s := sliceLen_eq codes s e he
    rw [process_range]
    split
    · rename_i h0
      have hse : e ≤ s := by omega
      refine ⟨⟨fun h => Or.inl h, ?_⟩, ⟨fun h => Or.inl h, ?_⟩⟩ <;>
        · rintro (h | h)
          · exact h
          · omega
    · rename_i h0
      split
      · rename_i filtering hfs
        obtain ⟨hfne, data, hdata⟩ := firstSuccess_some oracle s e _ maxR filtering hfs
        have hids : filtering.map FItem.id = List.range' 1 (sliceLen codes s e) := by
          rw [hdata]
          exact normalize_map_id data _ (hdata ▸ hfne)
        constructor
        · rw [recordFold_keys_retain]
          constructor
          · rintro (h | ⟨it, hit, hg⟩)
            · exact Or.inl h
            · right
              have hm : it.id ∈ filtering.map FItem.id := List.mem_map_of_mem _ hit
              rw [hids, List.mem_range'_1] at hm
              omega
          · rintro (h | hg)
            · exact Or.inl h
            · right
              have hm : g - s ∈ filtering.map FItem.id := by
                rw [hids, List.mem_range'_1]
                omega
              obtain ⟨it, hit, hid⟩ := List.mem_map.mp hm
              exact ⟨it, hit, by omega⟩
        · rw [recordFold_keys_reason]
          constructor
          · rintro (h | ⟨it, hit, hg⟩)
            · exact Or.inl h
            · right
              have hm : it.id ∈ filtering.map FItem.id := List.mem_map_of_mem _ hit
              rw [hids, List.mem_range'_1] at hm
              omega
          · rintro (h | hg)
            · exact Or.inl h
            · right
              have hm : g - s ∈ filtering.map FItem.id := by
                rw [hids, List.mem_range'_1]
                omega
              obtain ⟨it, hit, hid⟩ := List.mem_map.mp hm
              exact ⟨it, hit, by omega⟩
      · rename_i hfs
        split
        · rename_i h1
          constructor
          · simp only [recordSingleFail]
            rw [dictInsert_mem_keys]
            constructor
            · rintro (h | h)
              · right
                omega
              · exact Or.inl h
            · rintro (h | h)
              · exact Or.inr h
              · left
                omega
          · simp only [recordSingleFail]
            rw [dictInsert_mem_keys]
            constructor
            · rintro (h | h)
              · right
                omega
              · exact Or.inl h
            · rintro (h | h)
              · exact Or.inr h
              · left
                omega
        · rename_i h1
          have hn2 : 2 ≤ sliceLen codes s e := by omega
          have hmid1 : s + sliceLen codes s e / 2 - s < d := by omega
          have hmid2 : e - (s + sliceLen codes s e / 2) < d := by omega
          have hml : s + sliceLen codes s e / 2 ≤ codes.length := by omega
          have hA := ih (s + sliceLen codes s e / 2 - s) (by omega) s
            (s + sliceLen codes s e / 2) st rfl hml
          have hB := ih (e - (s + sliceLen codes s e / 2)) (by omega)
            (s + sliceLen codes s e / 2) e
            (process_range oracle codes maxR errS s (s + sliceLen codes s e / 2) st) rfl he
          constructor
          · rw [(hB g).1, (hA g).1]
            constructor
            · rintro ((h | h) | h)
              · exact Or.inl h
              · right
                omega
              · right
                omega
            · rintro (h | h)
              · exact Or.inl (Or.inl h)
              · by_cases hg2 : g ≤ s + sliceLen codes s e / 2
                · left
                  right
                  omega
                · right
                  omega
          · rw [(hB g).2, (hA g).2]
            constructor
            · rintro ((h | h) | h)
              · exact Or.inl h
              · right
                omega
              · right
                omega
            · rintro (h | h)
              · exact Or.inl (Or.inl h)
              · by_cases hg2 : g ≤ s + sliceLen codes s e / 2
                · left
                  right
                  omega
                · right
                  omega

theorem batches_keys (oracle : Oracle) (codes : List String) (maxR : Nat)
    (errS : String) (B : Nat) (hB : 1 ≤ B) :
    ∀ (k : Nat) (st : FState) (g : Nat),
      (g ∈ (((List.range k).map (· * B)).foldl
            (fun st s => process_range oracle codes maxR errS s
              (min (s + B) codes.length) st) st).id2retain.map Prod.fst ↔
          g ∈ st.id2retain.map Prod.fst ∨ (1 ≤ g ∧ g ≤ min (k * B) codes.length)) ∧
        (g ∈ (((List.range k).map (· * B)).foldl
            (fun st s => process_range oracle codes maxR errS s
              (min (s + B) codes.length) st) st).id2reason.map Prod.fst ↔
          g ∈ st.id2reason.map Prod.fst ∨ (1 ≤ g ∧ g ≤ min (k * B) codes.length)) := by
  intro k
  induction k with
  | zero =>
    intro st g
    refine ⟨⟨fun h => Or.inl h, ?_⟩, ⟨fun h => Or.inl h, ?_⟩⟩ <;>
      · rintro (h | h)
        · exact h
        · simp at h
          omega
  | succ k ih =>
    intro st g
    rw [List.range_succ, List.map_append, List.foldl_append]
    simp only [List.map_cons, List.map_nil, List.foldl_cons, List.foldl_nil]
    have hkeys := process_range_keys oracle codes maxR errS
      (min (k * B + B) codes.length - k * B) (k * B) (min (k * B + B) codes.length)
      (((List.range k).map (· * B)).foldl
        (fun st s => process_range oracle codes maxR errS s
          (min (s + B) codes.length) st) st)
      rfl (Nat.min_le_right _ _) g
    have hsm : (k + 1) * B = k * B + B := Nat.succ_mul k B
    constructor
    · rw [hkeys.1, (ih st g).1]
      constructor
      · rintro ((h | h) | h)
        · exact Or.inl h
        · right
          omega
        · right
          omega
      · rintro (h | h)
        · exact Or.inl (Or.inl h)
        · by_cases hg2 : g ≤ min (k * B) codes.length
          · left
            right
            omega
          · right
            omega
    · rw [hkeys.2, (ih st g).2]
      constructor
      · rintro ((h | h) | h)
        · exact Or.inl h
        · right
          omega
        · right
          omega
      · rintro (h | h)
        · exact Or.inl (Or.inl h)
        · by_cases hg2 : g ≤ min (k * B) codes.length
          · left
            right
            omega
          · right
            omega

/-- Key-set completeness of the whole batched filter: the returned
`id2retain` / `id2reason` maps hold exactly the global ids `1..N`. -/
theorem filter_unique_keys (oracle : Oracle) (codes : List String) (B maxR : Nat)
    (errS : String) (hB : 1 ≤ B) (g : Nat) :
    (g ∈ (filter_unique_codes_with_batching oracle codes B maxR errS).id2retain.map
        Prod.fst ↔ 1 ≤ g ∧ g ≤ codes.length) ∧
      (g ∈ (filter_unique_codes_with_batching oracle codes B maxR errS).id2reason.map
        Prod.fst ↔ 1 ≤ g ∧ g ≤ codes.length) := by
  have hKB : codes.length ≤ ((codes.length + B - 1) / B) * B := by
    have hdm := Nat.div_add_mod (codes.length + B - 1) B
    have hlt : (codes.length + B - 1) % B < B := Nat.mod_lt _ (by omega)
    have hcomm : ((codes.length + B - 1) / B) * B = B * ((codes.length + B - 1) / B) :=
      Nat.mul_comm _ _
    omega
  have h := batches_keys oracle codes maxR errS B hB
    ((codes.length + B - 1) / B) initState g
  unfold filter_unique_codes_with_batching batchStarts
  constructor
  · rw [h.1]
    simp only [initState, List.map_nil, List.not_mem_nil, false_or]
    constructor
    · intro hh
      omega
    · intro hh
      omega
  · rw [h.2]
    simp only [initState, List.map_nil, List.not_mem_nil, false_or]
    constructor
    · intro hh
      omega
    · intro hh
      omega

/-! ### Branch equations for the recursive functions -/

theorem process_range_zero (oracle : Oracle) (codes : List String) (maxR : Nat)
    (errS : String) (s e : Nat) (st : FState) (h0 : sliceLen codes s e = 0) :
    process_range oracle codes maxR errS s e st = st := by
  rw [process_range, dif_pos h0]

theorem process_range_success (oracle : Oracle) (codes : List String) (maxR : Nat)
    (errS : String) (s e : Nat) (st : FState) (filtering : List FItem)
    (h0 : ¬sliceLen codes s e = 0)
    (hfs : firstSuccess oracle s e (sliceLen codes s e) maxR = Option.some filtering) :
    process_range oracle codes maxR errS s e st = recordFold st s filtering := by
  rw [process_range, dif_neg h0, hfs]

theorem process_range_fail_one (oracle : Oracle) (codes : List String) (maxR : Nat)
    (errS : String) (s e : Nat) (st : FState)
    (h0 : ¬sliceLen codes s e = 0)
    (hfs : firstSuccess oracle s e (sliceLen codes s e) maxR = Option.none)
    (h1 : sliceLen codes s e = 1) :
    process_range oracle codes maxR errS s e st = recordSingleFail st (s + 1) errS := by
  rw [process_range, dif_neg h0, hfs, dif_pos h1]

theorem process_range_fail_split (oracle : Oracle) (codes : List String) (maxR : Nat)
    (errS : String) (s e : Nat) (st : FState)
    (h0 : ¬sliceLen codes s e = 0)
    (hfs : firstSuccess oracle s e (sliceLen codes s e) maxR = Option.none)
    (h1 : ¬sliceLen codes s e = 1) :
    process_range oracle codes maxR errS s e st =
      process_range oracle codes maxR errS (s + sliceLen codes s e / 2) e
        (process_range oracle codes maxR errS s (s + sliceLen codes s e / 2) st) := by
  rw [process_range, dif_neg h0, hfs, dif_neg h1]

theorem oracle_calls_zero (oracle : Oracle) (codes : List String) (maxR s e : Nat)
    (h0 : sliceLen codes s e = 0) : oracle_calls oracle codes maxR s e = 0 := by
  rw [oracle_calls, dif_pos h0]

theorem oracle_calls_success (oracle : Oracle) (codes : List String) (maxR s e : Nat)
    (filtering : List FItem) (h0 : ¬sliceLen codes s e = 0)
    (hfs : firstSuccess oracle s e (sliceLen codes s e) maxR = Option.some filtering) :
    oracle_calls oracle codes maxR s e = attemptsUsed oracle s e (sliceLen codes s e) maxR := by
  rw [oracle_calls, dif_neg h0, hfs]
  simp

theorem oracle_calls_fail_one (oracle : Oracle) (codes : List String) (maxR s e : Nat)
    (h0 : ¬sliceLen codes s e = 0)
    (hfs : firstSuccess oracle s e (sliceLen codes s e) maxR = Option.none)
    (h1 : sliceLen codes s e = 1) :
    oracle_calls oracle codes maxR s e = attemptsUsed oracle s e (sliceLen codes s e) maxR := by
  rw [oracle_calls, dif_neg h0, hfs, dif_pos h1]
  simp

theorem oracle_calls_fail_split (oracle : Oracle) (codes : List String) (maxR s e : Nat)
    (h0 : ¬sliceLen codes s e = 0)
    (hfs : firstSuccess oracle s e (sliceLen codes s e) maxR = Option.none)
    (h1 : ¬sliceLen codes s e = 1) :
    oracle_calls oracle codes maxR s e = attemptsUsed oracle s e (sliceLen codes s e) maxR +
      (oracle_calls oracle codes maxR s (s + sliceLen codes s e / 2) +
        oracle_calls oracle codes maxR (s + sliceLen codes s e / 2) e) := by
  rw [oracle_calls, dif_neg h0, hfs, dif_neg h1]

theorem bisect_nodes_zero (oracle : Oracle) (codes : List String) (maxR s e : Nat)
    (h0 : sliceLen codes s e = 0) : bisect_nodes oracle codes maxR s e = 0 := by
  rw [bisect_nodes, dif_pos h0]

theorem bisect_nodes_success (oracle : Oracle) (codes : List String) (maxR s e : Nat)
    (filtering : List FItem) (h0 : ¬sliceLen codes s e = 0)
    (hfs : firstSuccess oracle s e (sliceLen codes s e) maxR = Option.some filtering) :
    bisect_nodes oracle codes maxR s e = 1 := by
  rw [bisect_nodes, dif_neg h0, hfs]
  simp

theorem bisect_nodes_fail_one (oracle : Oracle) (codes : List String) (maxR s e : Nat)
    (h0 : ¬sliceLen codes s e = 0)
    (hfs : firstSuccess oracle s e (sliceLen codes s e) maxR = Option.none)
    (h1 : sliceLen codes s e = 1) :
    bisect_nodes oracle codes maxR s e = 1 := by
  rw [bisect_nodes, dif_neg h0, hfs, dif_pos h1]
  simp

theorem bisect_nodes_fail_split (oracle : Oracle) (codes : List String) (maxR s e : Nat)
    (h0 : ¬sliceLen codes s e = 0)
    (hfs : firstSuccess oracle s e (sliceLen codes s e) maxR = Option.none)
    (h1 : ¬sliceLen codes s e = 1) :
    bisect_nodes oracle codes maxR s e = 1 +
      (bisect_nodes oracle codes maxR s (s + sliceLen codes s e / 2) +
        bisect_nodes oracle codes maxR (s + sliceLen codes s e / 2) e) := by
  rw [bisect_nodes, dif_neg h0, hfs, dif_neg h1]

/-! ### Bounds on the number of oracle calls (termination / resources) -/

theorem oracle_calls_le_nodes (oracle : Oracle) (codes : List String) (maxR : Nat) :
    ∀ (d s e : Nat), e - s = d →
      oracle_calls oracle codes maxR s e ≤ maxR * bisect_nodes oracle codes maxR s e := by
  intro d
  induction d using Nat.strong_induction_on with
  | _ d ih =>
    intro s e hd
    by_cases h0 : sliceLen codes s e = 0
    · rw [oracle_calls_zero oracle codes maxR s e h0, bisect_nodes_zero oracle codes maxR s e h0]
      simp
    · cases hfs : firstSuccess oracle s e (sliceLen codes s e) maxR with
      | some l =>
        rw [oracle_calls_success oracle codes maxR s e l h0 hfs,
          bisect_nodes_success oracle codes maxR s e l h0 hfs]
        have ha := attemptsUsed_le oracle s e (sliceLen codes s e) maxR
        omega
      | none =>
        by_cases h1 : sliceLen codes s e = 1
        · rw [oracle_calls_fail_one oracle codes maxR s e h0 hfs h1,
            bisect_nodes_fail_one oracle codes maxR s e h0 hfs h1]
          have ha := attemptsUsed_le oracle s e (sliceLen codes s e) maxR
          omega
        · rw [oracle_calls_fail_split oracle codes maxR s e h0 hfs h1,
            bisect_nodes_fail_split oracle codes maxR s e h0 hfs h1]
          have hsl := sliceLen_le codes s e
          have h2 : 2 ≤ sliceLen codes s e := by omega
          have i1 := ih (s + sliceLen codes s e / 2 - s) (by omega) s
            (s + sliceLen codes s e / 2) rfl
          have i2 := ih (e - (s + sliceLen codes s e / 2)) (by omega)
            (s + sliceLen codes s e / 2) e rfl
          have ha := attemptsUsed_le oracle s e (sliceLen codes s e) maxR
          have hdist : maxR * (1 +
              (bisect_nodes oracle codes maxR s (s + sliceLen codes s e / 2) +
                bisect_nodes oracle codes maxR (s + sliceLen codes s e / 2) e)) =
              maxR + (maxR * bisect_nodes oracle codes maxR s (s + sliceLen codes s e / 2) +
                maxR * bisect_nodes oracle codes maxR (s + sliceLen codes s e / 2) e) := by
            ring
          omega

theorem bisect_nodes_bound (oracle : Oracle) (codes : List String) (maxR : Nat) :
    ∀ (d s e : Nat), e - s = d → e ≤ codes.length →
      bisect_nodes oracle codes maxR s e ≤ 2 * sliceLen codes s e - 1 := by
  intro d
  induction d using Nat.strong_induction_on with
  | _ d ih =>
    intro s e hd he
    have hn : sliceLen codes s e = e - s := sliceLen_eq codes s e he
    by_cases h0 : sliceLen codes s e = 0
    · rw [bisect_nodes_zero oracle codes maxR s e h0]
      omega
    · cases hfs : firstSuccess oracle s e (sliceLen codes s e) maxR with
      | some l =>
        rw [bisect_nodes_success oracle codes maxR s e l h0 hfs]
        omega
      | none =>
        by_cases h1 : sliceLen codes s e = 1
        · rw [bisect_nodes_fail_one oracle codes maxR s e h0 hfs h1]
          omega
        · rw [bisect_nodes_fail_split oracle codes maxR s e h0 hfs h1]
          have h2 : 2 ≤ sliceLen codes s e := by omega
          have hmide : s + sliceLen codes s e / 2 ≤ codes.length := by omega
          have hs1 : sliceLen codes s (s + sliceLen codes s e / 2) =
              sliceLen codes s e / 2 := by
            rw [sliceLen_eq codes s _ hmide]
            omega
          have hs2 : sliceLen codes (s + sliceLen codes s e / 2) e =
              sliceLen codes s e - sliceLen codes s e / 2 := by
            rw [sliceLen_eq codes _ e he]
            omega
          have i1 := ih (s + sliceLen codes s e / 2 - s) (by omega) s
            (s + sliceLen codes s e / 2) rfl hmide
          have i2 := ih (e - (s + sliceLen codes s e / 2)) (by omega)
            (s + sliceLen codes s e / 2) e rfl he
          rw [hs1] at i1
          rw [hs2] at i2
          omega

/-! ### The poison-oracle model for bisection isolation -/

/-- One well-formed reply entry for local id `i` of the sub-batch starting
at `s`, drawn from a ground-truth verdict table. -/
def mkTruthEntry (truth : Nat → Bool × String) (s i : Nat) : PyVal :=
  PyVal.dict [("id", .int (i : Int)), ("retain", .bool (truth (s + i)).1),
    ("exclude_reason", .str (truth (s + i)).2)]

/-- A complete, correct reply for the sub-batch `[s, e)`. -/
def truthData (truth : Nat → Bool × String) (s e : Nat) : PyDict :=
  [("filtering", PyVal.list ((List.range' 1 (e - s)).map (mkTruthEntry truth s)))]

/-- The verdict the normalizer produces from a truth entry. -/
def truthItem (truth : Nat → Bool × String) (s i : Nat) : FItem :=
  { id := i, retain := (truth (s + i)).1,
    exclude_reason := if (truth (s + i)).1 then "" else pstrip (truth (s + i)).2 }

/-- The claim's oracle model: a call on a batch containing the poison item
`p` (a global 1-based id) fails on every attempt; a call on a batch without
it returns the correct, complete verdict list. -/
def poisonOracle (p : Nat) (truth : Nat → Bool × String) : Oracle :=
  fun s e _ => if s < p ∧ p ≤ e then Option.none else Option.some (truthData truth s e)

theorem mkTruthEntry_entryId (truth : Nat → Bool × String) (s i : Nat) :
    entryId (mkTruthEntry truth s i) = Option.some (i : Int) := rfl

theorem mkTruthEntry_accept (truth : Nat → Bool × String) (s i : Nat) :
    acceptItem i (mkTruthEntry truth s i) = truthItem truth s i := by
  simp [acceptItem, mkTruthEntry, truthItem, pyGet, pyTruthy, pyStr, List.lookup]

theorem truthItem_id (truth : Nat → Bool × String) (s i : Nat) :
    (truthItem truth s i).id = i := rfl

theorem truthFold (n : Nat) (truth : Nat → Bool × String) (s : Nat) :
    ∀ (m a : Nat) (acc : List Nat × List FItem),
      1 ≤ a → a + m ≤ n + 1 → (∀ j ∈ acc.1, j < a) →
      ((List.range' a m).map (mkTruthEntry truth s)).foldl (normStep n) acc =
        (acc.1 ++ List.range' a m, acc.2 ++ (List.range' a m).map (truthItem truth s)) := by
  intro m
  induction m with
  | zero =>
    intro a acc h1 h2 h3
    simp
  | succ m ih =>
    intro a acc h1 h2 h3
    rw [List.range'_succ, List.map_cons, List.foldl_cons]
    have hstep : normStep n acc (mkTruthEntry truth s a) =
        (acc.1 ++ [a], acc.2 ++ [truthItem truth s a]) := by
      have hna : ¬((a : Int) < 1) := by omega
      have hnb : ¬((a : Int) > (n : Int)) := by
        have : a ≤ n := by omega
        omega
      have hns : a ∉ acc.1 := fun hmem => absurd (h3 a hmem) (by omega)
      simp only [normStep, mkTruthEntry_entryId, if_neg hna, if_neg hnb,
        Int.toNat_natCast, mkTruthEntry_accept]
      rw [if_neg hns]
    rw [hstep, ih (a + 1) _ (by omega) (by omega) ?hfresh]
    case hfresh =>
      intro j hj
      rcases List.mem_append.mp hj with hj | hj
      · have := h3 j hj
        omega
      · rw [List.mem_singleton] at hj
        omega
    simp [List.append_assoc]

theorem normalize_truthData (truth : Nat → Bool × String) (s e : Nat) :
    normalize_filtering_result (truthData truth s e) (e - s) =
      (List.range' 1 (e - s)).map (truthItem truth s) := by
  have hlk : (truthData truth s e).lookup "filtering" =
      Option.some (PyVal.list ((List.range' 1 (e - s)).map (mkTruthEntry truth s))) := rfl
  rw [normalize_eq_sort _ _ _ hlk]
  rw [truthFold (e - s) truth s (e - s) 1 ([], []) (by omega) (by omega) (by simp)]
  have hfill : ((List.range' 1 (e - s)).filter
      (fun bid => bid ∉ (([] : List Nat) ++ List.range' 1 (e - s)))).map fillDefault = [] := by
    rw [List.filter_eq_nil_iff.mpr, List.map_nil]
    intro a ha
    simp only [List.nil_append, decide_not]
    simp [ha]
  simp only [List.nil_append] at hfill ⊢
  rw [hfill, List.append_nil]
  apply List.Sorted.insertionSort_eq
  apply List.pairwise_map.mpr
  apply (List.pairwise_lt_range' 1 (e - s)).imp
  intro a b hab
  show (truthItem truth s a).id ≤ (truthItem truth s b).id
  rw [truthItem_id, truthItem_id]
  omega

theorem find?_map_range' (f : Nat → FItem) (hid : ∀ i, (f i).id = i) (s g : Nat) :
    ∀ (m a : Nat), ((List.range' a m).map f).find? (fun it => s + it.id == g) =
      (if s + a ≤ g ∧ g < s + a + m then Option.some (f (g - s)) else Option.none) := by
  intro m
  induction m with
  | zero =>
    intro a
    rw [if_neg (by omega)]
    rfl
  | succ m ih =>
    intro a
    rw [List.range'_succ, List.map_cons]
    by_cases hg : s + a = g
    · rw [List.find?_cons_of_pos _ (by simp [hid, hg])]
      rw [if_pos (by omega)]
      have hag : a = g - s := by omega
      rw [hag]
    · rw [List.find?_cons_of_neg _ (by simp [hid, hg])]
      rw [ih (a + 1)]
      by_cases hcond : s + (a + 1) ≤ g ∧ g < s + (a + 1) + m
      · rw [if_pos hcond, if_pos (by omega)]
      · rw [if_neg hcond, if_neg (by omega)]

/-- Ground truth assumptions of the poison-oracle scenario: the oracle's
verdicts follow the production invariant (empty reason when retained) and
carry already-stripped reasons. -/
def TruthOk (truth : Nat → Bool × String) : Prop :=
  (∀ g, (truth g).1 = true → (truth g).2 = "") ∧ (∀ g, pstrip (truth g).2 = (truth g).2)

theorem truthItem_lookup_vals (truth : Nat → Bool × String) (htr : TruthOk truth)
    (s i : Nat) :
    (truthItem truth s i).retain = (truth (s + i)).1 ∧
      pstrip (truthItem truth s i).exclude_reason = (truth (s + i)).2 := by
  refine ⟨rfl, ?_⟩
  show pstrip (if (truth (s + i)).1 then "" else pstrip (truth (s + i)).2) = _
  by_cases hb : (truth (s + i)).1
  · rw [if_pos hb]
    rw [htr.1 _ hb]
    rfl
  · rw [if_neg hb, htr.2, htr.2]

/-- A sub-batch that excludes the poison item succeeds on the first
attempt and records exactly the oracle's verdicts. -/
theorem nopoison_process_range (codes : List String) (truth : Nat → Bool × String)
    (p : Nat) (errS : String) (maxR : Nat) (hmr : 1 ≤ maxR) (htr : TruthOk truth)
    (s e : Nat) (st : FState) (he : e ≤ codes.length) (hnp : ¬(s < p ∧ p ≤ e)) :
    (∀ g, s < g → g ≤ e →
        (process_range (poisonOracle p truth) codes maxR errS s e st).id2retain.lookup g =
            Option.some (truth g).1 ∧
          (process_range (poisonOracle p truth) codes maxR errS s e st).id2reason.lookup g =
            Option.some (truth g).2) ∧
      (∀ g, ¬(s < g ∧ g ≤ e) →
        (process_range (poisonOracle p truth) codes maxR errS s e st).id2retain.lookup g =
            st.id2retain.lookup g ∧
          (process_range (poisonOracle p truth) codes maxR errS s e st).id2reason.lookup g =
            st.id2reason.lookup g) := by
  have hn : sliceLen codes s e = e - s := sliceLen_eq codes s e he
  by_cases h0 : sliceLen codes s e = 0
  · rw [process_range_zero _ _ _ _ _ _ _ h0]
    constructor
    · intro g hg1 hg2
      omega
    · intro g _
      exact ⟨rfl, rfl⟩
  · have ho : poisonOracle p truth s e 1 = Option.some (truthData truth s e) := by
      unfold poisonOracle
      rw [if_neg hnp]
    have hnorm : normalize_filtering_result (truthData truth s e) (sliceLen codes s e) =
        (List.range' 1 (e - s)).map (truthItem truth s) := by
      rw [hn]
      exact normalize_truthData truth s e
    have hne : normalize_filtering_result (truthData truth s e) (sliceLen codes s e) ≠ [] := by
      rw [hnorm]
      intro hnil
      have := congrArg List.length hnil
      simp at this
      omega
    have hfs : firstSuccess (poisonOracle p truth) s e (sliceLen codes s e) maxR =
        Option.some ((List.range' 1 (e - s)).map (truthItem truth s)) := by
      rw [firstSuccess_of_first_attempt _ s e _ maxR _ hmr ho hne, hnorm]
    rw [process_range_success _ _ _ _ _ _ _ _ h0 hfs]
    have hnd : (((List.range' 1 (e - s)).map (truthItem truth s)).map FItem.id).Nodup := by
      have hmm : ((List.range' 1 (e - s)).map (truthItem truth s)).map FItem.id =
          List.range' 1 (e - s) := by
        rw [List.map_map]
        have hcomp : (FItem.id ∘ truthItem truth s) = fun i => i := by
          funext i
          exact truthItem_id truth s i
        rw [hcomp, List.map_id']
      rw [hmm]
      exact List.nodup_range' 1 (e - s)
    have hfind := find?_map_range' (truthItem truth s) (truthItem_id truth s) s
    constructor
    · intro g hg1 hg2
      constructor
      · rw [recordFold_lookup_retain s _ st g hnd, hfind g (e - s) 1,
          if_pos (by omega)]
        have hgs : s + (g - s) = g := by omega
        show Option.some (truthItem truth s (g - s)).retain = Option.some (truth g).1
        rw [(truthItem_lookup_vals truth htr s (g - s)).1, hgs]
      · rw [recordFold_lookup_reason s _ st g hnd, hfind g (e - s) 1,
          if_pos (by omega)]
        have hgs : s + (g - s) = g := by omega
        show Option.some (pstrip (truthItem truth s (g - s)).exclude_reason) =
          Option.some (truth g).2
        rw [(truthItem_lookup_vals truth htr s (g - s)).2, hgs]
    · intro g hg
      constructor
      · rw [recordFold_lookup_retain s _ st g hnd, hfind g (e - s) 1,
          if_neg (by omega)]
      · rw [recordFold_lookup_reason s _ st g hnd, hfind g (e - s) 1,
          if_neg (by omega)]

/-- Bisection isolation: with exactly one poison item `p` in `(s, e]`, the
classifier assigns the single-item failure default only to `p`; every
other item in range gets exactly the oracle's verdict; ids outside the
range are untouched. -/
theorem poison_process_range (codes : List String) (truth : Nat → Bool × String)
    (p : Nat) (errS : String) (maxR : Nat) (hmr : 1 ≤ maxR) (htr : TruthOk truth) :
    ∀ (d s e : Nat) (st : FState), e - s = d → e ≤ codes.length → s < p → p ≤ e →
      ((process_range (poisonOracle p truth) codes maxR errS s e st).id2retain.lookup p =
          Option.some false ∧
        (process_range (poisonOracle p truth) codes maxR errS s e st).id2reason.lookup p =
          Option.some (singleFailReason errS)) ∧
      (∀ g, s < g → g ≤ e → g ≠ p →
        (process_range (poisonOracle p truth) codes maxR errS s e st).id2retain.lookup g =
            Option.some (truth g).1 ∧
          (process_range (poisonOracle p truth) codes maxR errS s e st).id2reason.lookup g =
            Option.some (truth g).2) ∧
      (∀ g, ¬(s < g ∧ g ≤ e) →
        (process_range (poisonOracle p truth) codes maxR errS s e st).id2retain.lookup g =
            st.id2retain.lookup g ∧
          (process_range (poisonOracle p truth) codes maxR errS s e st).id2reason.lookup g =
            st.id2reason.lookup g) := by
  intro d
  induction d using Nat.strong_induction_on with
  | _ d ih =>
    intro s e st hd he hp1 hp2
    have hn : sliceLen codes s e = e - s := sliceLen_eq codes s e he
    have h0 : ¬sliceLen codes s e = 0 := by omega
    have hfail : ∀ t, poisonOracle p truth s e t = Option.none := by
      intro t
      unfold poisonOracle
      rw [if_pos ⟨hp1, hp2⟩]
    have hfs := firstSuccess_none_of_fail (poisonOracle p truth) s e
      (sliceLen codes s e) maxR hfail
    by_cases h1 : sliceLen codes s e = 1
    · have hpe : p = s + 1 := by omega
      rw [process_range_fail_one _ _ _ _ _ _ _ h0 hfs h1]
      refine ⟨⟨?_, ?_⟩, ?_, ?_⟩
      · simp only [recordSingleFail]
        rw [hpe]
        exact dictInsert_lookup_self _ _ _
      · simp only [recordSingleFail]
        rw [hpe]
        exact dictInsert_lookup_self _ _ _
      · intro g hg1 hg2 hgp
        omega
      · intro g hg
        simp only [recordSingleFail]
        constructor <;> exact dictInsert_lookup_ne _ _ _ _ (by omega)
    · rw [process_range_fail_split _ _ _ _ _ _ _ h0 hfs h1]
      have h2 : 2 ≤ sliceLen codes s e := by omega
      have hmide : s + sliceLen codes s e / 2 ≤ codes.length := by omega
      by_cases hp : p ≤ s + sliceLen codes s e / 2
      · have hinner := ih (s + sliceLen codes s e / 2 - s) (by omega) s
          (s + sliceLen codes s e / 2) st rfl hmide hp1 hp
        have houter := nopoison_process_range codes truth p errS maxR hmr htr
          (s + sliceLen codes s e / 2) e
          (process_range (poisonOracle p truth) codes maxR errS s
            (s + sliceLen codes s e / 2) st) he (by omega)
        refine ⟨⟨?_, ?_⟩, ?_, ?_⟩
        · rw [(houter.2 p (by omega)).1]
          exact hinner.1.1
        · rw [(houter.2 p (by omega)).2]
          exact hinner.1.2
        · intro g hg1 hg2 hgp
          by_cases hg : g ≤ s + sliceLen codes s e / 2
          · constructor
            · rw [(houter.2 g (by omega)).1]
              exact (hinner.2.1 g hg1 hg hgp).1
            · rw [(houter.2 g (by omega)).2]
              exact (hinner.2.1 g hg1 hg hgp).2
          · exact houter.1 g (by omega) hg2
        · intro g hg
          constructor
          · rw [(houter.2 g (by omega)).1]
            exact (hinner.2.2 g (by omega)).1
          · rw [(houter.2 g (by omega)).2]
            exact (hinner.2.2 g (by omega)).2
      · have hinner := nopoison_process_range codes truth p errS maxR hmr htr s
          (s + sliceLen codes s e / 2) st hmide (by omega)
        have houter := ih (e - (s + sliceLen codes s e / 2)) (by omega)
          (s + sliceLen codes s e / 2) e
          (process_range (poisonOracle p truth) codes maxR errS s
            (s + sliceLen codes s e / 2) st) rfl he (by omega) hp2
        refine ⟨⟨?_, ?_⟩, ?_, ?_⟩
        · exact houter.1.1
        · exact houter.1.2
        · intro g hg1 hg2 hgp
          by_cases hg : g ≤ s + sliceLen codes s e / 2
          · constructor
            · rw [(houter.2.2 g (by omega)).1]
              exact (hinner.1 g hg1 hg).1
            · rw [(houter.2.2 g (by omega)).2]
              exact (hinner.1 g hg1 hg).2
          · exact houter.2.1 g (by omega) hg2 hgp
        · intro g hg
          constructor
          · rw [(houter.2.2 g (by omega)).1]
            exact (hinner.2 g (by omega)).1
          · rw [(houter.2.2 g (by omega)).2]
            exact (hinner.2 g (by omega)).2

/-! ### The empty-"filtering" reply counts as success -/

/-- A parsed oracle reply whose `"filtering"` key holds an empty list. -/
def emptyFilteringData : PyDict := [("filtering", PyVal.list [])]

theorem normalize_empty_list (n : Nat) :
    normalize_filtering_result emptyFilteringData n = (List.range' 1 n).map fillDefault := by
  have h : emptyFilteringData.lookup "filtering" = Option.some (PyVal.list []) := rfl
  rw [normalize_eq_sort _ n [] h]
  simp only [List.foldl_nil, List.nil_append]
  have hfil : (List.range' 1 n).filter
      (fun bid => bid ∉ (([], []) : List Nat × List FItem).1) = List.range' 1 n := by
    apply List.filter_eq_self.mpr
    intro a _
    simp
  rw [hfil]
  apply List.Sorted.insertionSort_eq
  apply List.pairwise_map.mpr
  apply (List.pairwise_lt_range' 1 n).imp
  intro a b hab
  show (fillDefault a).id ≤ (fillDefault b).id
  rw [fillDefault_id, fillDefault_id]
  omega

theorem empty_reply_counts_as_success (oracle : Oracle) (codes : List String)
    (maxR : Nat) (errS : String) (s e : Nat) (st : FState)
    (hmr : 1 ≤ maxR) (he : e ≤ codes.length) (hse : s < e)
    (ho : oracle s e 1 = Option.some emptyFilteringData) :
    (∀ g, s < g → g ≤ e →
      (process_range oracle codes maxR errS s e st).id2retain.lookup g =
          Option.some false ∧
        (process_range oracle codes maxR errS s e st).id2reason.lookup g =
          Option.some manualReviewReason) ∧
      oracle_calls oracle codes maxR s e = 1 ∧
      bisect_nodes oracle codes maxR s e = 1 := by
  have hn : sliceLen codes s e = e - s := sliceLen_eq codes s e he
  have h0 : ¬sliceLen codes s e = 0 := by omega
  have hnorm : normalize_filtering_result emptyFilteringData (sliceLen codes s e) =
      (List.range' 1 (sliceLen codes s e)).map fillDefault := normalize_empty_list _
  have hne : normalize_filtering_result emptyFilteringData (sliceLen codes s e) ≠ [] := by
    rw [hnorm]
    intro hnil
    have hl := congrArg List.length hnil
    simp at hl
    omega
  have hfs := firstSuccess_of_first_attempt oracle s e (sliceLen codes s e) maxR _ hmr ho hne
  rw [hnorm] at hfs
  have hnd : (((List.range' 1 (sliceLen codes s e)).map fillDefault).map FItem.id).Nodup := by
    have hmm : ((List.range' 1 (sliceLen codes s e)).map fillDefault).map FItem.id =
        List.range' 1 (sliceLen codes s e) := by
      rw [List.map_map]
      have hcomp : (FItem.id ∘ fillDefault) = fun i => i := rfl
      rw [hcomp, List.map_id']
    rw [hmm]
    exact List.nodup_range' 1 _
  have hfind := find?_map_range' fillDefault fillDefault_id s
  refine ⟨?_, ?_, ?_⟩
  · intro g hg1 hg2
    rw [process_range_success _ _ _ _ _ _ _ _ h0 hfs]
    constructor
    · rw [recordFold_lookup_retain s _ st g hnd, hfind g (sliceLen codes s e) 1,
        if_pos (by omega)]
      rfl
    · rw [recordFold_lookup_reason s _ st g hnd, hfind g (sliceLen codes s e) 1,
        if_pos (by omega)]
      rfl
  · rw [oracle_calls_success _ _ _ _ _ _ h0 hfs]
    exact attemptsUsed_of_first_attempt oracle s e _ maxR _ hmr ho hne
  · exact bisect_nodes_success _ _ _ _ _ _ h0 hfs

/-! ### The id ↔ code text mappings -/

theorem lookup_mem {κ α : Type} [DecidableEq κ] :
    ∀ (m : List (κ × α)) (k : κ) (v : α), m.lookup k = Option.some v → (k, v) ∈ m := by
  intro m
  induction m with
  | nil =>
    intro k v h
    cases h
  | cons p rest ih =>
    intro k v h
    obtain ⟨a, b⟩ := p
    by_cases hak : k = a
    · subst hak
      simp [List.lookup_cons] at h
      rw [h]
      exact List.mem_cons_self _ _
    · have hne : (k == a) = false := by
        simp only [beq_eq_false_iff_ne]
        exact hak
      simp only [List.lookup_cons, hne] at h
      exact List.mem_cons_of_mem _ (ih k v h)

theorem mem_keys_lookup_isSome {κ α : Type} [DecidableEq κ] :
    ∀ (m : List (κ × α)) (k : κ), k ∈ m.map Prod.fst → ∃ v, m.lookup k = Option.some v := by
  intro m
  induction m with
  | nil =>
    intro k h
    simp at h
  | cons p rest ih =>
    intro k h
    obtain ⟨a, b⟩ := p
    by_cases hak : k = a
    · subst hak
      exact ⟨b, by simp [List.lookup_cons]⟩
    · have hne : (k == a) = false := by
        simp only [beq_eq_false_iff_ne]
        exact hak
      simp only [List.map_cons, List.mem_cons] at h
      rcases h with h | h
      · exact absurd h hak
      · obtain ⟨v, hv⟩ := ih k h
        exact ⟨v, by simp [List.lookup_cons, hne, hv]⟩

theorem id2code_keys (codes : List String) (g : Nat) :
    g ∈ (id2code codes).map Prod.fst ↔ 1 ≤ g ∧ g ≤ codes.length := by
  unfold id2code
  rw [List.map_map]
  have h : (Prod.fst ∘ fun p : Nat × String => (p.1 + 1, p.2)) =
      (fun i => i + 1) ∘ Prod.fst := rfl
  rw [h, ← List.map_map, List.enum_map_fst]
  simp only [List.mem_map, List.mem_range]
  constructor
  · rintro ⟨i, hi, rfl⟩
    omega
  · intro hg
    exact ⟨g - 1, by omega, by omega⟩

theorem id2code_mem (codes : List String) (i : Nat) (c : String) :
    (i, c) ∈ id2code codes ↔ ∃ h : i - 1 < codes.length, 1 ≤ i ∧ codes[i - 1] = c := by
  unfold id2code
  simp only [List.mem_map]
  constructor
  · rintro ⟨⟨a, b⟩, hab, hic⟩
    rw [List.mem_enum_iff_getElem?] at hab
    simp only [Prod.mk.injEq] at hic
    obtain ⟨h1, h2⟩ := hic
    obtain ⟨hlt, hget⟩ := List.getElem?_eq_some.mp hab
    have hia : i - 1 = a := by omega
    refine ⟨by omega, by omega, ?_⟩
    simp [hia, hget, ← h2]
  · rintro ⟨hlt, h1, hget⟩
    refine ⟨(i - 1, c), ?_, ?_⟩
    · rw [List.mem_enum_iff_getElem?]
      exact List.getElem?_eq_some.mpr ⟨hlt, hget⟩
    · simp only [Prod.mk.injEq]
      exact ⟨by omega, trivial⟩

theorem id2code_injective (codes : List String) (hnd : codes.Nodup) (i j : Nat) (c : String)
    (hi : (i, c) ∈ id2code codes) (hj : (j, c) ∈ id2code codes) : i = j := by
  rw [id2code_mem] at hi hj
  obtain ⟨hilt, hi1, hig⟩ := hi
  obtain ⟨hjlt, hj1, hjg⟩ := hj
  have hgg : codes[i - 1] = codes[j - 1] := by
    rw [hig, hjg]
  have hinj := List.nodup_iff_injective_get.mp hnd
  have hij : (⟨i - 1, hilt⟩ : Fin codes.length) = ⟨j - 1, hjlt⟩ := by
    apply hinj
    rw [List.get_eq_getElem, List.get_eq_getElem]
    exact hgg
  have hval : i - 1 = j - 1 := congrArg Fin.val hij
  omega

theorem code2id_fold_frame (v : String) :
    ∀ (pl : List (Nat × String)) (acc : List (String × Nat)), v ∉ pl.map Prod.snd →
      (pl.foldl (fun acc p => dictInsert acc p.2 p.1) acc).lookup v = acc.lookup v := by
  intro pl
  induction pl with
  | nil =>
    intro acc _
    rfl
  | cons p rest ih =>
    intro acc hv
    simp only [List.map_cons, List.mem_cons, not_or] at hv
    rw [List.foldl_cons, ih _ hv.2]
    exact dictInsert_lookup_ne _ _ _ _ hv.1

theorem code2id_fold_lookup (v : String) (k : Nat) :
    ∀ (pl : List (Nat × String)) (acc : List (String × Nat)),
      (pl.map Prod.snd).Nodup → (k, v) ∈ pl →
      (pl.foldl (fun acc p => dictInsert acc p.2 p.1) acc).lookup v = Option.some k := by
  intro pl
  induction pl with
  | nil =>
    intro acc _ hmem
    cases hmem
  | cons p rest ih =>
    intro acc hnd hmem
    simp only [List.map_cons, List.nodup_cons] at hnd
    rw [List.foldl_cons]
    rcases List.mem_cons.mp hmem with hmem | hmem
    · rw [← hmem] at hnd ⊢
      rw [code2id_fold_frame v rest _ hnd.1]
      exact dictInsert_lookup_self _ _ _
    · exact ih _ hnd.2 hmem

/-- The text → id reverse lookup round-trips on every entry of `id2code`,
provided the unique-code list is duplicate-free. -/
theorem code2id_roundtrip (codes : List String) (hnd : codes.Nodup) (cid : Nat)
    (c : String) (hl : (id2code codes).lookup cid = Option.some c) :
    (code2id_of (id2code codes)).lookup c = Option.some cid := by
  have hsnd : ((id2code codes).map Prod.snd).Nodup := by
    unfold id2code
    rw [List.map_map]
    have h : (Prod.snd ∘ fun p : Nat × String => (p.1 + 1, p.2)) = Prod.snd := rfl
    rw [h, List.enum_map_snd]
    exact hnd
  exact code2id_fold_lookup c cid (id2code codes) [] hsnd (lookup_mem _ cid c hl)

/-! ### Module 4: the coverage validator -/

/-- `validate_coverage(result, axial_codes)` from
`Module4_selective_coding.py` (lines 81–95), with the selective-coding
result abstracted to the list of `covered_axial_codes` string lists of its
aggregate concepts (`str(a)` on a string is the identity; `.strip()` is
applied to every covered entry).  `seen_set` iteration order (a Python
set) is modelled by first-occurrence order (`dedup`); the claims only
depend on membership and emptiness.  `Counter` keys iterate in
first-occurrence order as well. -/
def validate_coverage (concepts : List (List String)) (axial_codes : List String) :
    List String × List String × List String :=
  let seen := (concepts.map (fun c => c.map pstrip)).flatten
  let seen_set := seen.dedup
  let missing := axial_codes.filter (fun a => a ∉ seen_set)
  let extra := seen_set.filter (fun a => a ∉ axial_codes)
  let dup := seen.dedup.filter (fun k => decide (1 < seen.count k) && !(k == ""))
  (missing, extra, dup)

theorem validate_coverage_partition (concepts : List (List String))
    (axial_codes : List String) (hnd : axial_codes.Nodup)
    (hperm : ((concepts.map (fun c => c.map pstrip)).flatten).Perm axial_codes) :
    validate_coverage concepts axial_codes = ([], [], []) := by
  unfold validate_coverage
  have hmem : ∀ a, a ∈ (concepts.map (fun c => c.map pstrip)).flatten ↔ a ∈ axial_codes :=
    fun a => hperm.mem_iff
  refine congrArg₂ Prod.mk ?_ (congrArg₂ Prod.mk ?_ ?_)
  · rw [List.filter_eq_nil_iff]
    intro a ha
    simp only [decide_not, Bool.not_eq_true', decide_eq_false_iff_not, Decidable.not_not]
    rw [List.mem_dedup]
    exact (hmem a).mpr ha
  · rw [List.filter_eq_nil_iff]
    intro a ha
    rw [List.mem_dedup] at ha
    simp only [decide_not, Bool.not_eq_true', decide_eq_false_iff_not, Decidable.not_not]
    exact (hmem a).mp ha
  · rw [List.filter_eq_nil_iff]
    intro k hk
    rw [List.mem_dedup] at hk
    have hcount : ((concepts.map (fun c => c.map pstrip)).flatten).count k =
        axial_codes.count k := hperm.count_eq k
    have hle : axial_codes.count k ≤ 1 := List.nodup_iff_count_le_one.mp hnd k
    simp only [Bool.and_eq_true, decide_eq_true_eq, Bool.not_eq_true', beq_eq_false_iff_ne]
    rintro ⟨hgt, _⟩
    omega

theorem validate_coverage_missing (concepts : List (List String))
    (axial_codes : List String) (hnd : axial_codes.Nodup) (a : String)
    (ha : a ∈ axial_codes)
    (hperm : ((concepts.map (fun c => c.map pstrip)).flatten).Perm (axial_codes.erase a)) :
    a ∈ (validate_coverage concepts axial_codes).1 := by
  unfold validate_coverage
  rw [List.mem_filter]
  refine ⟨ha, ?_⟩
  simp only [decide_not, Bool.not_eq_true', decide_eq_false_iff_not]
  rw [List.mem_dedup]
  intro hmem
  rw [hperm.mem_iff] at hmem
  exact absurd hmem (List.Nodup.not_mem_erase hnd)

/-! ### Module 1: the text segmenter -/

/-- `str.splitlines()` over the line endings the pipeline sees
(`\n`, `\r\n`, `\r`; the exotic Unicode line boundaries Python also
splits on never occur in the data).  A trailing segment is emitted only
when nonempty, as in Python. -/
def splitLinesGo : List Char → List Char → List (List Char)
  | cur, [] => if cur.isEmpty then [] else [cur.reverse]
  | cur, '\r' :: '\n' :: rest => cur.reverse :: splitLinesGo [] rest
  | cur, '\r' :: rest => cur.reverse :: splitLinesGo [] rest
  | cur, '\n' :: rest => cur.reverse :: splitLinesGo [] rest
  | cur, c :: rest => splitLinesGo (c :: cur) rest

/-- `text.splitlines()`. -/
def splitlines (cs : List Char) : List (List Char) :=
  splitLinesGo [] cs

/-- One question/answer unit. -/
structure QABlock where
  question : List Char
  answer : List Char
deriving DecidableEq, Repr

/-- `line.startswith(("Q:", "Q："))`. -/
def isQMarker (l : List Char) : Bool :=
  match l with
  | 'Q' :: ':' :: _ => true
  | 'Q' :: '：' :: _ => true
  | _ => false

/-- `line.startswith(("A:", "A："))`. -/
def isAMarker (l : List Char) : Bool :=
  match l with
  | 'A' :: ':' :: _ => true
  | 'A' :: '：' :: _ => true
  | _ => false

/-- `re.sub(r"^Q[:：]\s*", "", line)` under the `startswith` guard (same
for the `A` marker): drop the two marker characters and the following
whitespace run. -/
def stripMarker (l : List Char) : List Char :=
  (l.drop 2).dropWhile isPySpace

/-- `"\n".join(lines)`. -/
def joinNL : List (List Char) → List Char
  | [] => []
  | [x] => x
  | x :: xs => x ++ '\n' :: joinNL xs

/-- The segmenter's loop state: the open question buffer, the answer-line
buffer, and the emitted blocks. -/
structure QAState where
  q : Option (List Char)
  acc : List (List Char)
  blocks : List QABlock
deriving Repr

/-- Flushing the pending pair (`Module1_open_coding.py`, lines 21–23 and
37–38): emits a block only when a question is open *and* the answer
buffer is nonempty, and then clears the answer buffer. -/
def qaFlush (st : QAState) : QAState :=
  match st.q with
  | Option.some q =>
    if st.acc.isEmpty then st
    else
      { st with
        blocks := st.blocks ++
          [{ question := stripChars q, answer := stripChars (joinNL st.acc) }],
        acc := [] }
  | Option.none => st

/-- One iteration of the line loop of `parse_qa_blocks` (lines 15–35). -/
def qaStep (st : QAState) (raw : List Char) : QAState :=
  let line := stripChars raw
  if line.isEmpty then st
  else if isQMarker line then
    let st' := qaFlush st
    { st' with q := Option.some (stripMarker line) }
  else if isAMarker line then
    let a_body := stripMarker line
    if a_body.isEmpty then st else { st with acc := st.acc ++ [a_body] }
  else if !st.acc.isEmpty then { st with acc := st.acc ++ [line] }
  else
    match st.q with
    | Option.some q => { st with q := Option.some (q ++ ' ' :: line) }
    | Option.none => st

/-- `parse_qa_blocks` from `Module1_open_coding.py` (lines 10–40). -/
def parse_qa_blocks (text : List Char) : List QABlock :=
  (qaFlush ((splitlines text).foldl qaStep
    { q := Option.none, acc := [], blocks := [] })).blocks

theorem stripChars_all_ws (l : List Char) (h : ∀ c ∈ l, isPySpace c = true) :
    stripChars l = [] := by
  unfold stripChars
  have h1 : l.dropWhile isPySpace = [] := by
    rw [List.dropWhile_eq_nil_iff]
    exact h
  rw [h1]
  rfl

theorem mem_dropWhile_of (p : Char → Bool) (l : List Char) (c : Char)
    (hc : c ∈ l) (hp : p c = false) : c ∈ l.dropWhile p := by
  induction l with
  | nil => cases hc
  | cons a rest ih =>
    by_cases pa : p a = true
    · rw [List.dropWhile_cons_of_pos pa]
      rcases List.mem_cons.mp hc with hc | hc
      · subst hc
        rw [hp] at pa
        cases pa
      · exact ih hc
    · rw [List.dropWhile_cons_of_neg pa]
      exact hc

theorem mem_stripChars (l : List Char) (c : Char) (hc : c ∈ l)
    (hp : isPySpace c = false) : c ∈ stripChars l := by
  unfold stripChars
  rw [List.mem_reverse]
  apply mem_dropWhile_of _ _ _ _ hp
  rw [List.mem_reverse]
  exact mem_dropWhile_of _ _ _ hc hp

theorem stripChars_ne_nil (l : List Char) (h : ∃ c ∈ l, isPySpace c = false) :
    stripChars l ≠ [] := by
  obtain ⟨c, hc, hw⟩ := h
  exact List.ne_nil_of_mem (mem_stripChars l c hc hw)

theorem stripChars_has_nonws (l : List Char) (h : stripChars l ≠ []) :
    ∃ c ∈ stripChars l, isPySpace c = false := by
  have hl : ∃ c ∈ l, isPySpace c = false := by
    by_contra hcon
    push_neg at hcon
    apply h
    apply stripChars_all_ws
    intro c hc
    have := hcon c hc
    simpa using this
  obtain ⟨c, hc, hw⟩ := hl
  exact ⟨c, mem_stripChars l c hc hw, hw⟩

theorem dropWhile_has_nonws (l : List Char) (h : l.dropWhile isPySpace ≠ []) :
    ∃ c ∈ l.dropWhile isPySpace, isPySpace c = false := by
  induction l with
  | nil => exact absurd rfl h
  | cons a rest ih =>
    by_cases pa : isPySpace a = true
    · rw [List.dropWhile_cons_of_pos pa] at h ⊢
      exact ih h
    · rw [List.dropWhile_cons_of_neg pa] at h ⊢
      exact ⟨a, List.mem_cons_self _ _, by simpa using pa⟩

theorem mem_joinNL (c : Char) : ∀ (ls : List (List Char)) (l : List Char),
    l ∈ ls → c ∈ l → c ∈ joinNL ls := by
  intro ls
  induction ls with
  | nil =>
    intro l hl
    cases hl
  | cons x xs ih =>
    intro l hl hc
    cases xs with
    | nil =>
      rw [List.mem_singleton] at hl
      subst hl
      exact hc
    | cons y ys =>
      show c ∈ x ++ '\n' :: joinNL (y :: ys)
      rcases List.mem_cons.mp hl with hl | hl
      · subst hl
        exact List.mem_append.mpr (Or.inl hc)
      · refine List.mem_append.mpr (Or.inr ?_)
        exact List.mem_cons_of_mem _ (ih l hl hc)

/-- Invariant: every buffered answer line contains a non-whitespace
character. -/
def accOk (acc : List (List Char)) : Prop :=
  ∀ l ∈ acc, ∃ c ∈ l, isPySpace c = false

/-- Invariant: every emitted block has a nonempty answer. -/
def blocksOk (bs : List QABlock) : Prop :=
  ∀ b ∈ bs, b.answer ≠ []

theorem qaFlush_ok (st : QAState) (hb : blocksOk st.blocks) (ha : accOk st.acc) :
    blocksOk (qaFlush st).blocks ∧ accOk (qaFlush st).acc := by
  obtain ⟨oq, acc0, blocks0⟩ := st
  cases oq with
  | none => exact ⟨hb, ha⟩
  | some q =>
    cases acc0 with
    | nil => exact ⟨hb, ha⟩
    | cons a rest =>
      have he : qaFlush { q := Option.some q, acc := a :: rest, blocks := blocks0 } =
          { q := Option.some q, acc := ([] : List (List Char)),
            blocks := blocks0 ++
              [QABlock.mk (stripChars q) (stripChars (joinNL (a :: rest)))] } := rfl
      rw [he]
      constructor
      · intro b hbmem
        rcases List.mem_append.mp hbmem with hbmem | hbmem
        · exact hb b hbmem
        · rw [List.mem_singleton] at hbmem
          subst hbmem
          show stripChars (joinNL (a :: rest)) ≠ []
          obtain ⟨c, hc, hw⟩ := ha a (List.mem_cons_self _ _)
          exact stripChars_ne_nil _ ⟨c, mem_joinNL c (a :: rest) a
            (List.mem_cons_self _ _) hc, hw⟩
      · intro l hl
        cases hl

theorem qaStep_ok (st : QAState) (raw : List Char) (hb : blocksOk st.blocks)
    (ha : accOk st.acc) :
    blocksOk (qaStep st raw).blocks ∧ accOk (qaStep st raw).acc := by
  unfold qaStep
  by_cases h0 : (stripChars raw).isEmpty
  · rw [if_pos h0]
    exact ⟨hb, ha⟩
  · rw [if_neg h0]
    by_cases hq : isQMarker (stripChars raw)
    · rw [if_pos hq]
      have h := qaFlush_ok st hb ha
      exact ⟨h.1, h.2⟩
    · rw [if_neg hq]
      by_cases hA : isAMarker (stripChars raw)
      · rw [if_pos hA]
        by_cases hbody : (stripMarker (stripChars raw)).isEmpty
        · rw [if_pos hbody]
          exact ⟨hb, ha⟩
        · rw [if_neg hbody]
          refine ⟨hb, ?_⟩
          intro l hl
          rcases List.mem_append.mp hl with hl | hl
          · exact ha l hl
          · rw [List.mem_singleton] at hl
            subst hl
            apply dropWhile_has_nonws
            simpa [List.isEmpty_iff, stripMarker] using hbody
      · rw [if_neg hA]
        by_cases hacc : !st.acc.isEmpty
        · rw [if_pos hacc]
          refine ⟨hb, ?_⟩
          intro l hl
          rcases List.mem_append.mp hl with hl | hl
          · exact ha l hl
          · rw [List.mem_singleton] at hl
            subst hl
            apply stripChars_has_nonws
            simpa [List.isEmpty_iff] using h0
        · rw [if_neg hacc]
          cases st.q with
          | some q => exact ⟨hb, ha⟩
          | none => exact ⟨hb, ha⟩

/-- Everything `parse_qa_blocks` emits has a nonempty answer: a question
with no accumulated answer content is never emitted. -/
theorem parse_qa_blocks_answers_nonempty (text : List Char) (b : QABlock)
    (hbmem : b ∈ parse_qa_blocks text) : b.answer ≠ [] := by
  unfold parse_qa_blocks at hbmem
  have hinv : ∀ (lines : List (List Char)) (st : QAState),
      blocksOk st.blocks → accOk st.acc →
      blocksOk (lines.foldl qaStep st).blocks ∧ accOk (lines.foldl qaStep st).acc := by
    intro lines
    induction lines with
    | nil =>
      intro st hb' ha'
      exact ⟨hb', ha'⟩
    | cons l rest ih =>
      intro st hb' ha'
      rw [List.foldl_cons]
      have h := qaStep_ok st l hb' ha'
      exact ih _ h.1 h.2
  have h0 := hinv (splitlines text) { q := Option.none, acc := [], blocks := [] }
    (by intro x hx; cases hx) (by intro x hx; cases hx)
  have hf := qaFlush_ok _ h0.1 h0.2
  exact hf.1 b hbmem

example :
    parse_qa_blocks ("Q: 你觉得工作压力大吗？\nA: 是的，压力很大\n很累".data) =
      [{ question := "你觉得工作压力大吗？".data,
         answer := ("是的，压力很大\n很累").data }] := by decide

/-! ### The structured-response extractor (`safe_parse_json`)

`json.loads` is modelled by a recursive-descent reader covering the JSON
the pipeline exchanges: null, booleans, integers (fractions and exponents
are rejected — floats never occur in the claims), strings with the common
escapes (`\uXXXX` without surrogate pairs), arrays and objects (duplicate
keys resolve last-wins, as in Python). -/

def jsonWS (c : Char) : Bool :=
  c = ' ' || c = '\t' || c = '\n' || c = '\r'

def skipWS (cs : List Char) : List Char :=
  cs.dropWhile jsonWS

def hexVal (c : Char) : Option Nat :=
  if '0' ≤ c ∧ c ≤ '9' then Option.some (c.toNat - 48)
  else if 'a' ≤ c ∧ c ≤ 'f' then Option.some (c.toNat - 87)
  else if 'A' ≤ c ∧ c ≤ 'F' then Option.some (c.toNat - 55)
  else Option.none

/-- Reads the rest of a JSON string (after the opening quote), returning
its content and the remaining input. -/
def jsonStringRest : List Char → Option (List Char × List Char)
  | [] => Option.none
  | '"' :: rest => Option.some ([], rest)
  | '\\' :: 'u' :: h1 :: h2 :: h3 :: h4 :: rest =>
    match hexVal h1, hexVal h2, hexVal h3, hexVal h4 with
    | Option.some a, Option.some b, Option.some c, Option.some d =>
      let n := ((a * 16 + b) * 16 + c) * 16 + d
      if 0xD800 ≤ n ∧ n ≤ 0xDFFF then Option.none
      else (jsonStringRest rest).map (fun p => (Char.ofNat n :: p.1, p.2))
    | _, _, _, _ => Option.none
  | '\\' :: c :: rest =>
    match c with
    | '"' => (jsonStringRest rest).map (fun p => ('"' :: p.1, p.2))
    | '\\' => (jsonStringRest rest).map (fun p => ('\\' :: p.1, p.2))
    | '/' => (jsonStringRest rest).map (fun p => ('/' :: p.1, p.2))
    | 'n' => (jsonStringRest rest).map (fun p => ('\n' :: p.1, p.2))
    | 't' => (jsonStringRest rest).map (fun p => ('\t' :: p.1, p.2))
    | 'r' => (jsonStringRest rest).map (fun p => ('\r' :: p.1, p.2))
    | 'b' => (jsonStringRest rest).map (fun p => ('\x08' :: p.1, p.2))
    | 'f' => (jsonStringRest rest).map (fun p => ('\x0c' :: p.1, p.2))
    | _ => Option.none
  | c :: rest =>
    if c.toNat < 32 then Option.none
    else (jsonStringRest rest).map (fun p => (c :: p.1, p.2))

def digitsToNat (ds : List Char) : Nat :=
  ds.foldl (fun a c => a * 10 + (c.toNat - 48)) 0

def jsonNat (cs : List Char) : Option (Nat × List Char) :=
  match cs with
  | [] => Option.none
  | c :: rest =>
    if c = '0' then
      match rest with
      | d :: _ => if d.isDigit then Option.none else Option.some (0, rest)
      | [] => Option.some (0, [])
    else if c.isDigit then
      Option.some (digitsToNat (List.takeWhile Char.isDigit (c :: rest)),
        List.dropWhile Char.isDigit (c :: rest))
    else Option.none

def jsonNumber (cs : List Char) : Option (Int × List Char) :=
  match cs with
  | '-' :: rest =>
    (jsonNat rest).bind (fun p =>
      match p.2 with
      | '.' :: _ => Option.none
      | 'e' :: _ => Option.none
      | 'E' :: _ => Option.none
      | _ => Option.some (-(p.1 : Int), p.2))
  | _ =>
    (jsonNat cs).bind (fun p =>
      match p.2 with
      | '.' :: _ => Option.none
      | 'e' :: _ => Option.none
      | 'E' :: _ => Option.none
      | _ => Option.some ((p.1 : Int), p.2))

mutual

def jsonValue : Nat → List Char → Option (PyVal × List Char)
  | 0, _ => Option.none
  | fuel + 1, cs =>
    match skipWS cs with
    | 'n' :: 'u' :: 'l' :: 'l' :: rest => Option.some (PyVal.none, rest)
    | 't' :: 'r' :: 'u' :: 'e' :: rest => Option.some (PyVal.bool true, rest)
    | 'f' :: 'a' :: 'l' :: 's' :: 'e' :: rest => Option.some (PyVal.bool false, rest)
    | '"' :: rest => (jsonStringRest rest).map (fun p => (PyVal.str (String.mk p.1), p.2))
    | '[' :: rest =>
      (match skipWS rest with
       | ']' :: r2 => Option.some (PyVal.list [], r2)
       | _ =>
         (jsonValue fuel rest).bind (fun p =>
           (jsonArrTail fuel p.2).map (fun q => (PyVal.list (p.1 :: q.1), q.2))))
    | '\x7b' :: rest =>
      (match skipWS rest with
       | '\x7d' :: r2 => Option.some (PyVal.dict [], r2)
       | _ =>
         (jsonMember fuel rest).bind (fun p =>
           (jsonObjTail fuel p.2).map (fun q =>
             (PyVal.dict ((p.1 :: q.1).foldl
               (fun acc kv => dictInsert acc kv.1 kv.2) []), q.2))))
    | other => (jsonNumber other).map (fun p => (PyVal.int p.1, p.2))

def jsonArrTail : Nat → List Char → Option (List PyVal × List Char)
  | 0, _ => Option.none
  | fuel + 1, cs =>
    match skipWS cs with
    | ']' :: rest => Option.some ([], rest)
    | ',' :: rest =>
      (jsonValue fuel rest).bind (fun p =>
        (jsonArrTail fuel p.2).map (fun q => (p.1 :: q.1, q.2)))
    | _ => Option.none

def jsonMember : Nat → List Char → Option ((String × PyVal) × List Char)
  | 0, _ => Option.none
  | fuel + 1, cs =>
    match skipWS cs with
    | '"' :: rest =>
      (jsonStringRest rest).bind (fun p =>
        match skipWS p.2 with
        | ':' :: r2 => (jsonValue fuel r2).map (fun q => ((String.mk p.1, q.1), q.2))
        | _ => Option.none)
    | _ => Option.none

def jsonObjTail : Nat → List Char → Option (List (String × PyVal) × List Char)
  | 0, _ => Option.none
  | fuel + 1, cs =>
    match skipWS cs with
    | '\x7d' :: rest => Option.some ([], rest)
    | ',' :: rest =>
      (jsonMember fuel rest).bind (fun p =>
        (jsonObjTail fuel p.2).map (fun q => (p.1 :: q.1, q.2)))
    | _ => Option.none

end

/-- `json.loads`: parse one value, allow only trailing whitespace. -/
def json_loads (cs : List Char) : Option PyVal :=
  match jsonValue (cs.length + 1) cs with
  | Option.some (v, rest) => if (skipWS rest).isEmpty then Option.some v else Option.none
  | Option.none => Option.none

example : json_loads ("123".data) = Option.some (PyVal.int 123) := rfl
example : json_loads (" \x7b\"a\": [1, true, null]\x7d ".data) =
    Option.some (PyVal.dict [("a", PyVal.list [PyVal.int 1, PyVal.bool true, PyVal.none])]) :=
  rfl

/-- `re.sub(r"^```json\s*", "", s, flags=IGNORECASE)`: the sub fires only
when the string starts with the tagged fence. -/
def stripFence1 (cs : List Char) : List Char :=
  match cs with
  | '`' :: '`' :: '`' :: c1 :: c2 :: c3 :: c4 :: rest =>
    if (c1 == 'j' || c1 == 'J') && (c2 == 's' || c2 == 'S') &&
        (c3 == 'o' || c3 == 'O') && (c4 == 'n' || c4 == 'N') then
      rest.dropWhile isPySpace
    else cs
  | _ => cs

/-- `re.sub(r"^```\s*", "", s)`. -/
def stripFence2 (cs : List Char) : List Char :=
  match cs with
  | '`' :: '`' :: '`' :: rest => rest.dropWhile isPySpace
  | _ => cs

/-- `re.sub(r"\s*```$", "", s)`: drop a trailing fence and the whitespace
run before it. -/
def stripFence3 (cs : List Char) : List Char :=
  if cs.reverse.take 3 = ['`', '`', '`'] then
    ((cs.reverse.drop 3).dropWhile isPySpace).reverse
  else cs

/-- The preprocessed input of `safe_parse_json`: `text.strip()` followed by
the three fence substitutions, in source order. -/
def strippedInput (text : List Char) : List Char :=
  stripFence3 (stripFence2 (stripFence1 (stripChars text)))

/-- `s.find("{")`. -/
def findBrace (s : List Char) : Nat := List.indexOf '\x7b' s

/-- `s.rfind("}")`. -/
def rfindBrace (s : List Char) : Nat := s.length - 1 - List.indexOf '\x7d' s.reverse

/-- The substring `s[s.find("{") : s.rfind("}") + 1]` (empty when the last
`}` precedes the first `{`, as in Python slicing). -/
def braceSnippet (s : List Char) : List Char :=
  (s.drop (findBrace s)).take (rfindBrace s + 1 - findBrace s)

/-- `safe_parse_json` from `Module1_open_coding.py` lines 43–62 (the same
function is duplicated in `Module2_filtering.py` lines 10–29,
`Module4_selective_coding.py` lines 9–28 and `Module5_storyline.py`):
strip whitespace and code fences, try a direct parse, then fall back to
the first-`{`-to-last-`}` substring, then `None`. -/
def safe_parse_json (text : List Char) : Option PyVal :=
  match json_loads (strippedInput text) with
  | Option.some v => Option.some v
  | Option.none =>
    if ('\x7b' ∈ strippedInput text) && ('\x7d' ∈ strippedInput text) then
      json_loads (braceSnippet (strippedInput text))
    else Option.none

/-- Modelled from the spec (4.2 Structured-Response Extractor): the
strategies in order, first success wins — (1) strip a leading fenced-code
marker (optionally tagged json) and the trailing fence, parse directly;
(2) on failure parse the first-`{`-to-last-`}` substring when both braces
occur; (3) otherwise null. -/
def extractStrategies (text : List Char) : Option PyVal :=
  (json_loads (strippedInput text)).orElse (fun _ =>
    if ('\x7b' ∈ strippedInput text) && ('\x7d' ∈ strippedInput text) then
      json_loads (braceSnippet (strippedInput text))
    else Option.none)

/-- Is the extractor's result a JSON object or null (`None`)?  This is the
shape the claim asserts for every input. -/
def isObjOrNull (r : Option PyVal) : Bool :=
  match r with
  | Option.none => true
  | Option.some (PyVal.dict _) => true
  | Option.some _ => false

theorem safe_parse_json_eq_strategies (text : List Char) :
    safe_parse_json text = extractStrategies text := by
  unfold safe_parse_json extractStrategies
  cases json_loads (strippedInput text) with
  | some v => rfl
  | none => rfl

example : safe_parse_json ("```json\n\x7b\"retain\": true\x7d\n```".data) =
    Option.some (PyVal.dict [("retain", PyVal.bool true)]) := rfl

example : safe_parse_json ("reply: \x7b\"retain\": false\x7d ok".data) =
    Option.some (PyVal.dict [("retain", PyVal.bool false)]) := rfl

example : safe_parse_json ("no json here".data) = Option.none := rfl

/-! ### The claims -/

/-- C1: completeness of the resilient batch classifier — for every code
list, every batch size `B ≥ 1` and every oracle behaviour (successes,
exceptions, unusable replies, in any pattern, including always-fails),
`filter_unique_codes_with_batching` returns `id2retain` and `id2reason`
maps whose key sets are exactly the global ids `1..N`: every input item
receives exactly one verdict. -/
theorem claim_C1_batch_classifier_completeness (oracle : Oracle) (codes : List String)
    (B maxR : Nat) (errS : String) (hB : 1 ≤ B) (g : Nat) :
    (g ∈ (filter_unique_codes_with_batching oracle codes B maxR errS).id2retain.map
        Prod.fst ↔ 1 ≤ g ∧ g ≤ codes.length) ∧
      (g ∈ (filter_unique_codes_with_batching oracle codes B maxR errS).id2reason.map
        Prod.fst ↔ 1 ≤ g ∧ g ≤ codes.length) :=
  filter_unique_keys oracle codes B maxR errS hB g

theorem claim_C1_witness :
    (1 ∈ (filter_unique_codes_with_batching (fun _ _ _ => Option.none) ["a", "b"] 1 0
        "err").id2retain.map Prod.fst ↔ 1 ≤ 1 ∧ 1 ≤ (["a", "b"] : List String).length) ∧
      (1 ∈ (filter_unique_codes_with_batching (fun _ _ _ => Option.none) ["a", "b"] 1 0
        "err").id2reason.map Prod.fst ↔ 1 ≤ 1 ∧ 1 ≤ (["a", "b"] : List String).length) :=
  claim_C1_batch_classifier_completeness (fun _ _ _ => Option.none) ["a", "b"] 1 0 "err"
    (by decide) 1

/-- C2: normalizer totality — whenever `_normalize_filtering_result`
returns a nonempty list for `n ≥ 1`, that list has length exactly `n`,
its ids are exactly `1..n` in ascending order (no duplicate, none
missing), and entry `i` is the first reply entry whose id parses to `i`
(first-seen wins; non-numeric and out-of-range ids are dropped) or the
manual-review default when no entry was accepted for `i`. -/
theorem claim_C2_normalizer_totality (data : PyDict) (n : Nat) (hn : 1 ≤ n)
    (hne : normalize_filtering_result data n ≠ []) :
    (normalize_filtering_result data n).length = n ∧
      (normalize_filtering_result data n).map FItem.id = List.range' 1 n ∧
      normalize_filtering_result data n = (List.range' 1 n).map (expectedVerdict data) :=
  ⟨normalize_length data n hne, normalize_map_id data n hne,
    normalize_eq_map_expected data n hne⟩

theorem claim_C2_witness :
    (normalize_filtering_result [("filtering", PyVal.list [])] 1).length = 1 ∧
      (normalize_filtering_result [("filtering", PyVal.list [])] 1).map FItem.id =
        List.range' 1 1 ∧
      normalize_filtering_result [("filtering", PyVal.list [])] 1 =
        (List.range' 1 1).map (expectedVerdict [("filtering", PyVal.list [])]) :=
  claim_C2_normalizer_totality [("filtering", PyVal.list [])] 1 (by decide) (by decide)

/-- C3: bisection isolation — under the poison-oracle model (any batch
containing the single poison item `p` fails all attempts, any other batch
returns the correct complete verdict list), `process_range` assigns the
single-item failure default (`retain = False`) exactly to `p`, and every
other item in the range receives exactly the verdict the oracle returned
for it. -/
theorem claim_C3_bisection_isolation (codes : List String)
    (truth : Nat → Bool × String) (p : Nat) (errS : String) (maxR s e : Nat)
    (st : FState) (hmr : 1 ≤ maxR) (htr : TruthOk truth) (he : e ≤ codes.length)
    (hp1 : s < p) (hp2 : p ≤ e) :
    ((process_range (poisonOracle p truth) codes maxR errS s e st).id2retain.lookup p =
        Option.some false ∧
      (process_range (poisonOracle p truth) codes maxR errS s e st).id2reason.lookup p =
        Option.some (singleFailReason errS)) ∧
      (∀ g, s < g → g ≤ e → g ≠ p →
        (process_range (poisonOracle p truth) codes maxR errS s e st).id2retain.lookup g =
            Option.some (truth g).1 ∧
          (process_range (poisonOracle p truth) codes maxR errS s e st).id2reason.lookup g =
            Option.some (truth g).2) := by
  have h := poison_process_range codes truth p errS maxR hmr htr (e - s) s e st rfl he hp1 hp2
  exact ⟨h.1, h.2.1⟩

theorem claim_C3_witness :
    ((process_range (poisonOracle 2 (fun _ => (true, ""))) ["a", "b", "c"] 1 "err" 0 3
          initState).id2retain.lookup 2 = Option.some false ∧
      (process_range (poisonOracle 2 (fun _ => (true, ""))) ["a", "b", "c"] 1 "err" 0 3
          initState).id2reason.lookup 2 = Option.some (singleFailReason "err")) ∧
      (∀ g, 0 < g → g ≤ 3 → g ≠ 2 →
        (process_range (poisonOracle 2 (fun _ => (true, ""))) ["a", "b", "c"] 1 "err" 0 3
            initState).id2retain.lookup g = Option.some ((fun _ => (true, "")) g).1 ∧
          (process_range (poisonOracle 2 (fun _ => (true, ""))) ["a", "b", "c"] 1 "err" 0 3
            initState).id2reason.lookup g = Option.some ((fun _ => (true, "")) g).2) :=
  claim_C3_bisection_isolation ["a", "b", "c"] (fun _ => (true, "")) 2 "err" 1 0 3
    initState (by decide) ⟨fun _ _ => rfl, fun _ => rfl⟩ (by decide) (by decide) (by decide)

/-- C4: bisection termination — the total number of oracle calls is
bounded by `max_retries_each_batch` times the number of bisection-tree
nodes, which is itself finite (at most `2n - 1` for a slice of length
`n`); when every retry fails on a slice of length `> 1`, `process_range`
recurses exactly on the two halves `[start, start + n/2)` and
`[start + n/2, end)`, both strictly shorter, and a slice of length 1
returns the guaranteed default without recursing. -/
theorem claim_C4_bisection_termination (oracle : Oracle) (codes : List String)
    (maxR s e : Nat) (hse : s ≤ e) (he : e ≤ codes.length) :
    oracle_calls oracle codes maxR s e ≤ maxR * bisect_nodes oracle codes maxR s e ∧
      bisect_nodes oracle codes maxR s e ≤ 2 * sliceLen codes s e - 1 ∧
      (∀ (errS : String) (st : FState),
        firstSuccess oracle s e (sliceLen codes s e) maxR = Option.none →
        1 < sliceLen codes s e →
        (process_range oracle codes maxR errS s e st =
            process_range oracle codes maxR errS (s + sliceLen codes s e / 2) e
              (process_range oracle codes maxR errS s (s + sliceLen codes s e / 2) st) ∧
          sliceLen codes s (s + sliceLen codes s e / 2) = sliceLen codes s e / 2 ∧
          sliceLen codes (s + sliceLen codes s e / 2) e =
            sliceLen codes s e - sliceLen codes s e / 2 ∧
          sliceLen codes s e / 2 < sliceLen codes s e ∧
          sliceLen codes s e - sliceLen codes s e / 2 < sliceLen codes s e)) ∧
      (∀ (errS : String) (st : FState),
        firstSuccess oracle s e (sliceLen codes s e) maxR = Option.none →
        sliceLen codes s e = 1 →
        process_range oracle codes maxR errS s e st = recordSingleFail st (s + 1) errS) := by
  refine ⟨oracle_calls_le_nodes oracle codes maxR (e - s) s e rfl,
    bisect_nodes_bound oracle codes maxR (e - s) s e rfl he, ?_, ?_⟩
  · intro errS st hfs h1
    have hn : sliceLen codes s e = e - s := sliceLen_eq codes s e he
    have hmide : s + sliceLen codes s e / 2 ≤ codes.length := by omega
    refine ⟨process_range_fail_split oracle codes maxR errS s e st (by omega) hfs
      (by omega), ?_, ?_, by omega, by omega⟩
    · rw [sliceLen_eq codes s _ hmide]
      omega
    · rw [sliceLen_eq codes _ e he]
      omega
  · intro errS st hfs h1
    exact process_range_fail_one oracle codes maxR errS s e st (by omega) hfs h1

theorem claim_C4_witness :
    oracle_calls (fun _ _ _ => Option.none) ["a", "b"] 2 0 2 ≤
        2 * bisect_nodes (fun _ _ _ => Option.none) ["a", "b"] 2 0 2 ∧
      bisect_nodes (fun _ _ _ => Option.none) ["a", "b"] 2 0 2 ≤
        2 * sliceLen ["a", "b"] 0 2 - 1 ∧
      (∀ (errS : String) (st : FState),
        firstSuccess (fun _ _ _ => Option.none) 0 2 (sliceLen ["a", "b"] 0 2) 2 =
          Option.none →
        1 < sliceLen ["a", "b"] 0 2 →
        (process_range (fun _ _ _ => Option.none) ["a", "b"] 2 errS 0 2 st =
            process_range (fun _ _ _ => Option.none) ["a", "b"] 2 errS
              (0 + sliceLen ["a", "b"] 0 2 / 2) 2
              (process_range (fun _ _ _ => Option.none) ["a", "b"] 2 errS 0
                (0 + sliceLen ["a", "b"] 0 2 / 2) st) ∧
          sliceLen ["a", "b"] 0 (0 + sliceLen ["a", "b"] 0 2 / 2) =
            sliceLen ["a", "b"] 0 2 / 2 ∧
          sliceLen ["a", "b"] (0 + sliceLen ["a", "b"] 0 2 / 2) 2 =
            sliceLen ["a", "b"] 0 2 - sliceLen ["a", "b"] 0 2 / 2 ∧
          sliceLen ["a", "b"] 0 2 / 2 < sliceLen ["a", "b"] 0 2 ∧
          sliceLen ["a", "b"] 0 2 - sliceLen ["a", "b"] 0 2 / 2 < sliceLen ["a", "b"] 0 2)) ∧
      (∀ (errS : String) (st : FState),
        firstSuccess (fun _ _ _ => Option.none) 0 2 (sliceLen ["a", "b"] 0 2) 2 =
          Option.none →
        sliceLen ["a", "b"] 0 2 = 1 →
        process_range (fun _ _ _ => Option.none) ["a", "b"] 2 errS 0 2 st =
          recordSingleFail st (0 + 1) errS) :=
  claim_C4_bisection_termination (fun _ _ _ => Option.none) ["a", "b"] 2 0 2
    (by decide) (by decide)

/-- C5 (counterexample): the claimed biconditional "`exclude_reason` is
non-empty iff `retain` is false" fails on the code: on the reply
`{"filtering": [{"id": 1, "retain": false}]}` with `batch_size = 1`, the
normalizer outputs `retain = False` with an *empty* `exclude_reason`
(`item.get("exclude_reason", "")` defaults to `""` and is kept verbatim
when `retain` is falsy). -/
theorem claim_C5_counterexample :
    ¬ ∀ it ∈ normalize_filtering_result
        [("filtering", PyVal.list [PyVal.dict [("id", PyVal.int 1),
          ("retain", PyVal.bool false)]])] 1,
      (it.exclude_reason ≠ "" ↔ it.retain = false) := by
  decide

/-- C5 (amended): the direction that the code does guarantee — a retained
verdict always carries an empty reason (so a non-empty reason implies
`retain = False`); the fill default and the single-item-failure default
are non-retained with non-empty reasons; but a model-supplied
non-retained entry may carry an empty reason. -/
theorem claim_C5_reason_invariant_amended :
    (∀ (data : PyDict) (n : Nat) (it : FItem), it ∈ normalize_filtering_result data n →
      it.retain = true → it.exclude_reason = "") ∧
      (∀ i, (fillDefault i).retain = false ∧ (fillDefault i).exclude_reason ≠ "") ∧
      (∀ (st : FState) (gid : Nat) (errS : String),
        (recordSingleFail st gid errS).id2retain.lookup gid = Option.some false ∧
          (recordSingleFail st gid errS).id2reason.lookup gid =
            Option.some (singleFailReason errS) ∧
          singleFailReason errS ≠ "") := by
  refine ⟨normalize_retain_imp_empty_reason, ?_, ?_⟩
  · intro i
    refine ⟨rfl, ?_⟩
    show manualReviewReason ≠ ""
    decide
  · intro st gid errS
    refine ⟨dictInsert_lookup_self _ _ _, dictInsert_lookup_self _ _ _, ?_⟩
    intro h
    have hl := congrArg String.length h
    unfold singleFailReason at hl
    rw [String.length_append] at hl
    have hp : ("API失败/解析失败（单条）：" : String).length = 15 := by decide
    simp [hp] at hl

theorem claim_C5_amended_witness :
    ({ id := 1, retain := true, exclude_reason := "" } : FItem).exclude_reason = "" :=
  claim_C5_reason_invariant_amended.1
    [("filtering", PyVal.list [PyVal.dict [("id", PyVal.int 1),
      ("retain", PyVal.bool true)]])] 1
    { id := 1, retain := true, exclude_reason := "" } (by decide) (by decide)

/-- C6: id-mapping round trip — for a duplicate-free unique-code list,
`id2code` is a bijection between the ids `1..K` and the code texts, and
the reverse lookup `code2id` built in `build_filter_outputs_from_open_df`
satisfies `code2id[id2code[cid]] = cid` for every `cid`. -/
theorem claim_C6_id_mapping_roundtrip (codes : List String) (hnd : codes.Nodup) :
    (∀ g, g ∈ (id2code codes).map Prod.fst ↔ 1 ≤ g ∧ g ≤ codes.length) ∧
      (∀ i j c, (i, c) ∈ id2code codes → (j, c) ∈ id2code codes → i = j) ∧
      (∀ cid c, (id2code codes).lookup cid = Option.some c →
        (code2id_of (id2code codes)).lookup c = Option.some cid) :=
  ⟨fun g => id2code_keys codes g,
    fun i j c hi hj => id2code_injective codes hnd i j c hi hj,
    fun cid c hl => code2id_roundtrip codes hnd cid c hl⟩

theorem claim_C6_witness :
    (code2id_of (id2code ["压力大", "很累"])).lookup "很累" = Option.some 2 :=
  (claim_C6_id_mapping_roundtrip ["压力大", "很累"] (by decide)).2.2 2 "很累" (by decide)

/-- C7: coverage-validator partition property — when the concepts'
`covered_axial_codes` (after `strip`) exactly partition the known axial
codes, `validate_coverage` returns three empty lists; and removing the
single occurrence of a known code makes that code appear in `missing`. -/
theorem claim_C7_coverage_partition (concepts : List (List String))
    (axial_codes : List String) (hnd : axial_codes.Nodup) :
    (((concepts.map (fun c => c.map pstrip)).flatten).Perm axial_codes →
        validate_coverage concepts axial_codes = ([], [], [])) ∧
      (∀ (a : String) (concepts' : List (List String)), a ∈ axial_codes →
        ((concepts'.map (fun c => c.map pstrip)).flatten).Perm (axial_codes.erase a) →
        a ∈ (validate_coverage concepts' axial_codes).1) :=
  ⟨fun hperm => validate_coverage_partition concepts axial_codes hnd hperm,
    fun a concepts' ha hperm =>
      validate_coverage_missing concepts' axial_codes hnd a ha hperm⟩

theorem claim_C7_witness :
    validate_coverage [["压力"], ["疲劳"]] ["压力", "疲劳"] = ([], [], []) ∧
      "压力" ∈ (validate_coverage [["疲劳"]] ["压力", "疲劳"]).1 :=
  ⟨(claim_C7_coverage_partition [["压力"], ["疲劳"]] ["压力", "疲劳"] (by decide)).1
      (by decide),
    (claim_C7_coverage_partition [["压力"], ["疲劳"]] ["压力", "疲劳"] (by decide)).2
      "压力" [["疲劳"]] (by decide) (by decide)⟩

/-- C8: the segmenter never emits an answer-less block (a question marker
only flushes when the answer buffer is nonempty, and a trailing pending
question without answer is dropped), and on the spec's concrete input it
returns exactly one block with the two answer lines newline-joined. -/
theorem claim_C8_segmenter_blocks :
    (∀ (text : List Char) (b : QABlock), b ∈ parse_qa_blocks text → b.answer ≠ []) ∧
      parse_qa_blocks ("Q: 你觉得工作压力大吗？\nA: 是的，压力很大\n很累".data) =
        [{ question := "你觉得工作压力大吗？".data, answer := "是的，压力很大\n很累".data }] :=
  ⟨parse_qa_blocks_answers_nonempty, by decide⟩

theorem claim_C8_witness :
    ("是的，压力很大\n很累".data : List Char) ≠ [] :=
  claim_C8_segmenter_blocks.1 ("Q: 你觉得工作压力大吗？\nA: 是的，压力很大\n很累".data)
    { question := "你觉得工作压力大吗？".data, answer := "是的，压力很大\n很累".data }
    (by rw [claim_C8_segmenter_blocks.2]; exact List.mem_singleton.mpr rfl)

/-- C9 (counterexample): `safe_parse_json` does not always return a JSON
object or null: on the input `"123"` the first strategy parses the number
`123`, which is returned as-is (neither an object nor `None`). -/
theorem claim_C9_counterexample :
    safe_parse_json ("123".data) = Option.some (PyVal.int 123) ∧
      isObjOrNull (safe_parse_json ("123".data)) = false :=
  ⟨rfl, rfl⟩

/-- C9 (amended): `safe_parse_json` returns the first successfully parsed
JSON *value* — not necessarily an object — or null, never raising, with
the strategies tried in order (fence-stripped direct parse, then the
first-`{`-to-last-`}` substring, then null), first success winning; the
three concrete cases exercise one strategy each. -/
theorem claim_C9_extractor_amended :
    (∀ text : List Char, safe_parse_json text = extractStrategies text) ∧
      safe_parse_json ("```json\n\x7b\"retain\": true\x7d\n```".data) =
        Option.some (PyVal.dict [("retain", PyVal.bool true)]) ∧
      safe_parse_json ("reply: \x7b\"retain\": false\x7d ok".data) =
        Option.some (PyVal.dict [("retain", PyVal.bool false)]) ∧
      safe_parse_json ("no json here".data) = Option.none :=
  ⟨safe_parse_json_eq_strategies, rfl, rfl, rfl⟩

/-- C10: an empty (or entirely unusable) `"filtering"` list counts as a
successful attempt — the normalizer turns it into `n` manual-review
defaults (nonempty for `n ≥ 1`), so `process_range` records those
defaults, makes exactly one oracle call (no retry) and performs no
bisection. -/
theorem claim_C10_empty_filtering_success (oracle : Oracle) (codes : List String)
    (maxR n : Nat) (errS : String) (s e : Nat) (st : FState)
    (hn : 1 ≤ n) (hmr : 1 ≤ maxR) (he : e ≤ codes.length) (hse : s < e)
    (ho : oracle s e 1 = Option.some emptyFilteringData) :
    (normalize_filtering_result emptyFilteringData n =
        (List.range' 1 n).map fillDefault ∧
      normalize_filtering_result emptyFilteringData n ≠ []) ∧
      (∀ g, s < g → g ≤ e →
        (process_range oracle codes maxR errS s e st).id2retain.lookup g =
            Option.some false ∧
          (process_range oracle codes maxR errS s e st).id2reason.lookup g =
            Option.some manualReviewReason) ∧
      oracle_calls oracle codes maxR s e = 1 ∧
      bisect_nodes oracle codes maxR s e = 1 := by
  have h := empty_reply_counts_as_success oracle codes maxR errS s e st hmr he hse ho
  refine ⟨⟨normalize_empty_list n, ?_⟩, h.1, h.2.1, h.2.2⟩
  rw [normalize_empty_list n]
  intro hnil
  have hl := congrArg List.length hnil
  simp at hl
  omega

theorem claim_C10_witness :
    (normalize_filtering_result emptyFilteringData 1 =
        (List.range' 1 1).map fillDefault ∧
      normalize_filtering_result emptyFilteringData 1 ≠ []) ∧
      (∀ g, 0 < g → g ≤ 1 →
        (process_range (fun _ _ _ => Option.some emptyFilteringData) ["a"] 1 "err" 0 1
            initState).id2retain.lookup g = Option.some false ∧
          (process_range (fun _ _ _ => Option.some emptyFilteringData) ["a"] 1 "err" 0 1
            initState).id2reason.lookup g = Option.some manualReviewReason) ∧
      oracle_calls (fun _ _ _ => Option.some emptyFilteringData) ["a"] 1 0 1 = 1 ∧
      bisect_nodes (fun _ _ _ => Option.some emptyFilteringData) ["a"] 1 0 1 = 1 :=
  claim_C10_empty_filtering_success (fun _ _ _ => Option.some emptyFilteringData) ["a"]
    1 1 "err" 0 1 initState (by decide) (by decide) (by decide) (by decide) rfl
